import Mathlib

/-!
# Verification model of the `surreals` C++ library

Shallow embedding of `src/surreals.cpp` (namespace `surreals`).

* `Surreal` models the C++ class `Surreal`: a pair of `std::set<Surreal>`.
  A `std::set` ordered by `Surreal::operator<` is modelled as the list of its
  elements in iteration (ascending) order; insertion is `sinsert` below.
* The comparison `operator<=` is a recursive function on pairs; we embed it as
  a fuel-indexed function `leF` (so that it is kernel-computable) together
  with a wrapper `le` that supplies sufficient fuel, and prove that the fuel
  is irrelevant once it dominates the combined size of the arguments.
-/

namespace Surreals

/-- The C++ `Surreal` value: `left` and `right` are the element lists of the
two `std::set<Surreal>` members, in ascending iteration order. -/
inductive Surreal : Type where
  | mk (left right : List Surreal) : Surreal

namespace Surreal

/-- The `left` member set (as its iteration-ordered element list). -/
def left : Surreal → List Surreal
  | .mk l _ => l

/-- The `right` member set (as its iteration-ordered element list). -/
def right : Surreal → List Surreal
  | .mk _ r => r

@[simp] theorem left_mk (l r : List Surreal) : (mk l r).left = l := rfl
@[simp] theorem right_mk (l r : List Surreal) : (mk l r).right = r := rfl

@[simp] theorem mk_left_right (s : Surreal) : mk s.left s.right = s := by
  cases s with | mk l r => rfl

mutual

/-- Number of nodes of the recursive tree (only a termination/fuel
measure, not part of the C++ code). -/
def size : Surreal → Nat
  | .mk l r => 1 + sizeL l + sizeL r

/-- Total size of a list of trees. -/
def sizeL : List Surreal → Nat
  | [] => 0
  | x :: xs => size x + sizeL xs

end

theorem size_pos (s : Surreal) : 0 < size s := by
  cases s with | mk l r => rw [size]; omega

theorem size_le_sizeL_of_mem {x : Surreal} :
    ∀ {l : List Surreal}, x ∈ l → size x ≤ sizeL l := by
  intro l h
  induction l with
  | nil => cases h
  | cons y ys ih =>
      rw [sizeL]
      rcases List.mem_cons.mp h with rfl | hmem
      · omega
      · have := ih hmem; omega

theorem size_lt_of_mem_left {x s : Surreal} (h : x ∈ s.left) :
    size x < size s := by
  cases s with
  | mk l r =>
      have := size_le_sizeL_of_mem (l := l) (by simpa using h)
      rw [size]; omega

theorem size_lt_of_mem_right {x s : Surreal} (h : x ∈ s.right) :
    size x < size s := by
  cases s with
  | mk l r =>
      have := size_le_sizeL_of_mem (l := r) (by simpa using h)
      rw [size]; omega

/-- Fuel-indexed embedding of `operator<=(Surreal const&, Surreal const&)`
(`surreals.cpp` lines 547-555): `a <= b` iff no left option of `a` is `>= b`
and no right option of `b` is `<= a`.  Fuel `0` (never reached when the fuel
dominates the combined sizes) returns `false`. -/
def leF : Nat → Surreal → Surreal → Bool
  | 0, _, _ => false
  | n + 1, a, b =>
      (a.left.all fun l => ! leF n b l) && (b.right.all fun r => ! leF n r a)

/-- `operator<=`: the wrapper supplying sufficient fuel. -/
def le (a b : Surreal) : Bool := leF (size a + size b) a b

/-- Local helper: `List.all` only depends on the function's values on
members. -/
theorem all_congr_mem {α : Type} {l : List α} {f g : α → Bool}
    (h : ∀ a ∈ l, f a = g a) : l.all f = l.all g := by
  induction l with
  | nil => rfl
  | cons x xs ih =>
      simp only [List.all_cons, h x (by simp), ih fun a ha => h a (by simp [ha])]

theorem leF_irrel : ∀ n m a b, size a + size b ≤ n →
    size a + size b ≤ m → leF n a b = leF m a b := by
  intro n
  induction n using Nat.strong_induction_on with
  | _ n ih =>
    intro m a b hn hm
    have hpos : 2 ≤ size a + size b := by
      have := size_pos a; have := size_pos b; omega
    match n, m with
    | 0, _ => omega
    | _ + 1, 0 => omega
    | n' + 1, m' + 1 =>
      simp only [leF]
      congr 1
      · refine all_congr_mem fun l hl => ?_
        have hs : size l < size a := size_lt_of_mem_left hl
        rw [ih n' (by omega) m' b l (by omega) (by omega)]
      · refine all_congr_mem fun r hr => ?_
        have hs : size r < size b := size_lt_of_mem_right hr
        rw [ih n' (by omega) m' r a (by omega) (by omega)]

theorem leF_eq_le {n : Nat} {a b : Surreal} (h : size a + size b ≤ n) :
    leF n a b = le a b :=
  leF_irrel n (size a + size b) a b h (Nat.le_refl _)

/-- The defining recursion of `operator<=`, now without fuel. -/
theorem le_unfold (a b : Surreal) :
    le a b = ((a.left.all fun l => ! le b l) &&
              (b.right.all fun r => ! le r a)) := by
  have hpos : 1 ≤ size a + size b := by
    have := size_pos a; have := size_pos b; omega
  conv_lhs => rw [le]
  rcases Nat.exists_eq_add_of_le hpos with ⟨k, hk⟩
  rw [show size a + size b = k + 1 by omega]
  simp only [leF]
  congr 1
  · refine all_congr_mem fun l hl => ?_
    have := size_lt_of_mem_left hl
    rw [leF_eq_le (by omega)]
  · refine all_congr_mem fun r hr => ?_
    have := size_lt_of_mem_right hr
    rw [leF_eq_le (by omega)]

/-- Propositional characterisation of `operator<=`. -/
theorem le_iff {a b : Surreal} :
    le a b = true ↔
      (∀ l ∈ a.left, ¬ le b l = true) ∧ (∀ r ∈ b.right, ¬ le r a = true) := by
  rw [le_unfold]
  simp [List.all_eq_true]

theorem not_le_iff {a b : Surreal} :
    ¬ le a b = true ↔
      (∃ l ∈ a.left, le b l = true) ∨ (∃ r ∈ b.right, le r a = true) := by
  constructor
  · intro h
    by_cases hl : ∃ l ∈ a.left, le b l = true
    · exact Or.inl hl
    · push_neg at hl
      by_cases hr : ∃ r ∈ b.right, le r a = true
      · exact Or.inr hr
      · push_neg at hr
        exact absurd (le_iff.mpr ⟨fun l hml => by simpa using hl l hml,
          fun r hmr => by simpa using hr r hmr⟩) h
  · rintro (⟨l, hl, h⟩ | ⟨r, hr, h⟩) <;> intro hab
    · exact (le_iff.mp hab).1 l hl h
    · exact (le_iff.mp hab).2 r hr h

/-- `operator>=` (`surreals.cpp` line 557). -/
def ge (a b : Surreal) : Bool := le b a

/-- `operator==` (`surreals.cpp` line 559): numeric (Comparator) equality. -/
def eqS (a b : Surreal) : Bool := le a b && le b a

/-- `operator>` (`surreals.cpp` line 563). -/
def gt (a b : Surreal) : Bool := ! le a b

/-- `operator<` (`surreals.cpp` line 565): the strict order used by every
`std::set<Surreal>` and `std::map` key. -/
def lt (a b : Surreal) : Bool := gt b a

theorem lt_iff {a b : Surreal} : lt a b = true ↔ ¬ le b a = true := by
  simp [lt, gt]

theorem eqS_iff {a b : Surreal} :
    eqS a b = true ↔ le a b = true ∧ le b a = true := by
  simp [eqS]

/-! ### Order-theoretic facts about the Comparator

These are the standard facts about the recursive `<=` of combinatorial game
theory, proved for the embedded `le`. -/

theorem le_refl (s : Surreal) : le s s = true := by
  have H : ∀ n s, size s ≤ n → le s s = true := by
    intro n
    induction n using Nat.strong_induction_on with
    | _ n ih =>
      intro s hn
      have hpos := size_pos s
      refine le_iff.mpr ⟨fun l hl hsl => ?_, fun r hr hrs => ?_⟩
      · have := size_lt_of_mem_left hl
        exact (le_iff.mp hsl).1 l hl (ih (n - 1) (by omega) l (by omega))
      · have := size_lt_of_mem_right hr
        exact (le_iff.mp hrs).2 r hr (ih (n - 1) (by omega) r (by omega))
  exact H (size s) s (Nat.le_refl _)

/-- A game is never `<=` one of its own left options. -/
theorem not_le_of_mem_left {x s : Surreal} (h : x ∈ s.left) :
    ¬ le s x = true := fun hsx =>
  (le_iff.mp hsx).1 x h (le_refl x)

/-- A right option of a game is never `<=` the game. -/
theorem not_le_of_mem_right {x s : Surreal} (h : x ∈ s.right) :
    ¬ le x s = true := fun hxs =>
  (le_iff.mp hxs).2 x h (le_refl x)

theorem le_trans {x y z : Surreal} (h1 : le x y = true) (h2 : le y z = true) :
    le x z = true := by
  have H : ∀ n x y z, size x + size y + size z ≤ n →
      le x y = true → le y z = true → le x z = true := by
    intro n
    induction n using Nat.strong_induction_on with
    | _ n ih =>
      intro x y z hn h1 h2
      refine le_iff.mpr ⟨fun l hl hzl => ?_, fun r hr hrx => ?_⟩
      · have hs := size_lt_of_mem_left hl
        exact (le_iff.mp h1).1 l hl (ih (n - 1) (by omega) y z l (by omega) h2 hzl)
      · have hs := size_lt_of_mem_right hr
        exact (le_iff.mp h2).2 r hr (ih (n - 1) (by omega) r x y (by omega) hrx h1)
  exact H (size x + size y + size z) x y z (Nat.le_refl _) h1 h2

theorem eqS_refl (s : Surreal) : eqS s s = true :=
  eqS_iff.mpr ⟨le_refl s, le_refl s⟩

theorem eqS_symm {a b : Surreal} (h : eqS a b = true) : eqS b a = true := by
  rcases eqS_iff.mp h with ⟨h1, h2⟩
  exact eqS_iff.mpr ⟨h2, h1⟩

theorem eqS_trans {a b c : Surreal} (h1 : eqS a b = true)
    (h2 : eqS b c = true) : eqS a c = true := by
  rcases eqS_iff.mp h1 with ⟨hab, hba⟩
  rcases eqS_iff.mp h2 with ⟨hbc, hcb⟩
  exact eqS_iff.mpr ⟨le_trans hab hbc, le_trans hcb hba⟩

/-- `le` respects Comparator equality in both arguments. -/
theorem le_congr {a a' b b' : Surreal} (ha : eqS a a' = true)
    (hb : eqS b b' = true) : le a b = true ↔ le a' b' = true := by
  rcases eqS_iff.mp ha with ⟨ha1, ha2⟩
  rcases eqS_iff.mp hb with ⟨hb1, hb2⟩
  exact ⟨fun h => le_trans ha2 (le_trans h hb1),
         fun h => le_trans ha1 (le_trans h hb2)⟩

/-- To show `a <= b`, it is enough that every left option of `a` has a
Comparator-equal counterpart among the left options of `b`, and every right
option of `b` has one among the right options of `a`. -/
theorem le_of_options {a b : Surreal}
    (hL : ∀ l ∈ a.left, ∃ l' ∈ b.left, eqS l l' = true)
    (hR : ∀ r ∈ b.right, ∃ r' ∈ a.right, eqS r r' = true) :
    le a b = true := by
  refine le_iff.mpr ⟨fun l hl hbl => ?_, fun r hr hra => ?_⟩
  · rcases hL l hl with ⟨l', hl', hle⟩
    exact not_le_of_mem_left hl'
      (le_trans hbl (eqS_iff.mp hle).1)
  · rcases hR r hr with ⟨r', hr', hre⟩
    exact not_le_of_mem_right hr'
      (le_trans (eqS_iff.mp hre).2 hra)

/-- Comparator equality from pairwise-equivalent option sets. -/
theorem eqS_of_options {a b : Surreal}
    (hL1 : ∀ l ∈ a.left, ∃ l' ∈ b.left, eqS l l' = true)
    (hR1 : ∀ r ∈ b.right, ∃ r' ∈ a.right, eqS r r' = true)
    (hL2 : ∀ l ∈ b.left, ∃ l' ∈ a.left, eqS l l' = true)
    (hR2 : ∀ r ∈ a.right, ∃ r' ∈ b.right, eqS r r' = true) :
    eqS a b = true :=
  eqS_iff.mpr ⟨le_of_options hL1 hR1, le_of_options hL2 hR2⟩

/-! ### `std::set<Surreal>` -/

/-- `std::set<Surreal>::emplace` / `insert`: ordered insertion with respect to
`Surreal::operator<`; when an equivalent element is already present (neither
element is `<` the other) the set keeps the existing element and the insert
is a no-op. -/
def sinsert (x : Surreal) : List Surreal → List Surreal
  | [] => [x]
  | y :: ys =>
      if lt x y then x :: y :: ys
      else if lt y x then y :: sinsert x ys
      else y :: ys

/-- Building a `std::set<Surreal>` by emplacing the elements of a list in
order (e.g. the `for`-loops of the non-simplify constructor branch). -/
def toSet (l : List Surreal) : List Surreal :=
  l.foldl (fun s x => sinsert x s) []

theorem mem_of_mem_sinsert {z x : Surreal} :
    ∀ {s : List Surreal}, z ∈ sinsert x s → z = x ∨ z ∈ s := by
  intro s h
  induction s with
  | nil => simpa [sinsert] using h
  | cons y ys ih =>
      rw [sinsert] at h
      split at h
      · rcases List.mem_cons.mp h with rfl | h2
        · exact Or.inl rfl
        · exact Or.inr h2
      · split at h
        · rcases List.mem_cons.mp h with rfl | h2
          · exact Or.inr (List.mem_cons_self _ _)
          · rcases ih h2 with h3 | h3
            · exact Or.inl h3
            · exact Or.inr (List.mem_cons_of_mem _ h3)
        · exact Or.inr h

theorem mem_sinsert_of_mem {z x : Surreal} :
    ∀ {s : List Surreal}, z ∈ s → z ∈ sinsert x s := by
  intro s h
  induction s with
  | nil => cases h
  | cons y ys ih =>
      rw [sinsert]
      split
      · exact List.mem_cons_of_mem _ h
      · split
        · rcases List.mem_cons.mp h with rfl | h2
          · exact List.mem_cons_self _ _
          · exact List.mem_cons_of_mem _ (ih h2)
        · exact h

/-- The inserted element is represented in the result up to Comparator
equality (`std::set` keeps an equivalent existing element on collision). -/
theorem exists_eqS_mem_sinsert (x : Surreal) :
    ∀ (s : List Surreal), ∃ w ∈ sinsert x s, eqS w x = true := by
  intro s
  induction s with
  | nil => exact ⟨x, by simp [sinsert], eqS_refl x⟩
  | cons y ys ih =>
      rw [sinsert]
      split
      · exact ⟨x, List.mem_cons_self _ _, eqS_refl x⟩
      · split
        · rcases ih with ⟨w, hw, he⟩
          exact ⟨w, List.mem_cons_of_mem _ hw, he⟩
        · rename_i h1 h2
          have hyx : le y x = true := by
            cases hle : le y x with
            | true => rfl
            | false => exact absurd (by simp [lt, gt, hle]) h1
          have hxy : le x y = true := by
            cases hle : le x y with
            | true => rfl
            | false => exact absurd (by simp [lt, gt, hle]) h2
          exact ⟨y, List.mem_cons_self _ _, eqS_iff.mpr ⟨hyx, hxy⟩⟩

/-! ### Hereditarily valid numbers

Every `Surreal` object the C++ program ever creates passes the constructor
guard, and its set elements are themselves such objects; `numeric` captures
this hereditary validity invariant. -/

/-- Fuel-indexed hereditary validity: the anti-pseudo-number guard holds at
this node and, recursively, at every node below it. -/
def numF : Nat → Surreal → Bool
  | 0, _ => false
  | n + 1, s =>
      (s.right.all fun r => s.left.all fun l => ! le r l) &&
      (s.left.all fun l => numF n l) && (s.right.all fun r => numF n r)

/-- Hereditary validity with sufficient fuel. -/
def numeric (s : Surreal) : Bool := numF (size s) s

theorem numF_irrel : ∀ n m s, size s ≤ n → size s ≤ m →
    numF n s = numF m s := by
  intro n
  induction n using Nat.strong_induction_on with
  | _ n ih =>
    intro m s hn hm
    have hpos := size_pos s
    match n, m with
    | 0, _ => omega
    | _ + 1, 0 => omega
    | n' + 1, m' + 1 =>
      simp only [numF]
      congr 1
      · congr 1
        refine all_congr_mem fun l hl => ?_
        have := size_lt_of_mem_left hl
        rw [ih n' (by omega) m' l (by omega) (by omega)]
      · refine all_congr_mem fun r hr => ?_
        have := size_lt_of_mem_right hr
        rw [ih n' (by omega) m' r (by omega) (by omega)]

theorem numF_eq_numeric {n : Nat} {s : Surreal} (h : size s ≤ n) :
    numF n s = numeric s :=
  numF_irrel n (size s) s h (Nat.le_refl _)

theorem numeric_iff {s : Surreal} :
    numeric s = true ↔
      (∀ r ∈ s.right, ∀ l ∈ s.left, ¬ le r l = true) ∧
      (∀ l ∈ s.left, numeric l = true) ∧
      (∀ r ∈ s.right, numeric r = true) := by
  have hpos := size_pos s
  conv_lhs => rw [numeric]
  rcases Nat.exists_eq_add_of_le hpos with ⟨k, hk⟩
  rw [show size s = k + 1 by omega]
  rw [numF]
  have h1 : (s.left.all fun l => numF k l) = s.left.all fun l => numeric l :=
    all_congr_mem fun l hl => numF_eq_numeric
      (by have := size_lt_of_mem_left hl; omega)
  have h2 : (s.right.all fun r => numF k r) = s.right.all fun r => numeric r :=
    all_congr_mem fun r hr => numF_eq_numeric
      (by have := size_lt_of_mem_right hr; omega)
  rw [h1, h2]
  simp [List.all_eq_true, and_assoc]

theorem numeric_of_mem_left {s l : Surreal} (hs : numeric s = true)
    (h : l ∈ s.left) : numeric l = true :=
  (numeric_iff.mp hs).2.1 l h

theorem numeric_of_mem_right {s r : Surreal} (hs : numeric s = true)
    (h : r ∈ s.right) : numeric r = true :=
  (numeric_iff.mp hs).2.2 r h

theorem numeric_guard {s r l : Surreal} (hs : numeric s = true)
    (hr : r ∈ s.right) (hl : l ∈ s.left) : ¬ le r l = true :=
  (numeric_iff.mp hs).1 r hr l hl

/-- For a hereditarily valid number, each left option is `<=` the number. -/
theorem le_left_option {s : Surreal} (hs : numeric s = true) :
    ∀ l ∈ s.left, le l s = true := by
  have H : ∀ n s, size s ≤ n → numeric s = true →
      ∀ l ∈ s.left, le l s = true := by
    intro n
    induction n using Nat.strong_induction_on with
    | _ n ih =>
      intro s hn hs l hl
      have hsl := size_lt_of_mem_left hl
      refine le_iff.mpr ⟨fun l' hl' hsl' => ?_, fun r hr hrl => ?_⟩
      · have hnl : numeric l = true := numeric_of_mem_left hs hl
        have : le l' l = true :=
          ih (n - 1) (by omega) l (by omega) hnl l' hl'
        exact (le_iff.mp hsl').1 l hl this
      · exact numeric_guard hs hr hl hrl
  exact H (size s) s (Nat.le_refl _) hs

/-- For a hereditarily valid number, the number is `<=` each right option. -/
theorem le_right_option {s : Surreal} (hs : numeric s = true) :
    ∀ r ∈ s.right, le s r = true := by
  have H : ∀ n s, size s ≤ n → numeric s = true →
      ∀ r ∈ s.right, le s r = true := by
    intro n
    induction n using Nat.strong_induction_on with
    | _ n ih =>
      intro s hn hs r hr
      have hsr := size_lt_of_mem_right hr
      refine le_iff.mpr ⟨fun l hl hrl => ?_, fun r' hr' hr's => ?_⟩
      · exact numeric_guard hs hr hl hrl
      · have hnr : numeric r = true := numeric_of_mem_right hs hr
        have : le r r' = true :=
          ih (n - 1) (by omega) r (by omega) hnr r' hr'
        exact (le_iff.mp hr's).2 r hr this
  exact H (size s) s (Nat.le_refl _) hs

/-- Totality of the Comparator on hereditarily valid numbers. -/
theorem le_of_not_le {x y : Surreal} (hx : numeric x = true)
    (hy : numeric y = true) (h : ¬ le x y = true) : le y x = true := by
  refine le_iff.mpr ⟨fun l hl hxl => ?_, fun r hr hry => ?_⟩
  · exact h (le_trans hxl (le_left_option hy l hl))
  · exact h (le_trans (le_right_option hx r hr) hry)

/-- On hereditarily valid numbers, `a < b` is the strict version of `<=`. -/
theorem lt_iff_of_numeric {a b : Surreal} (ha : numeric a = true)
    (hb : numeric b = true) :
    lt a b = true ↔ le a b = true ∧ ¬ le b a = true := by
  rw [lt_iff]
  exact ⟨fun h => ⟨le_of_not_le hb ha h, h⟩, fun h => h.2⟩

/-! ### Iteration order of a `std::set<Surreal>`

The element list of a `std::set<Surreal>` is strictly ascending for
`operator<`; on hereditarily valid numbers this makes its last element a
maximum and its first element a minimum for `operator<=`. -/

theorem lt_trans_numeric {a b c : Surreal} (ha : numeric a = true)
    (hb : numeric b = true) (h1 : lt a b = true) (h2 : lt b c = true) :
    lt a c = true := by
  rw [lt_iff] at h1 h2 ⊢
  intro hca
  exact h2 (le_trans hca (le_of_not_le hb ha h1))

/-- The head of a strictly ascending chain of valid numbers is `<` every
later element. -/
theorem chain_lt_head_all :
    ∀ {t : List Surreal} {y : Surreal},
      List.Chain' (fun a b => lt a b = true) (y :: t) →
      (∀ x ∈ y :: t, numeric x = true) →
      ∀ b ∈ t, lt y b = true := by
  intro t
  induction t with
  | nil => intro y _ _ b hb; cases hb
  | cons z t' ih =>
      intro y hc hn b hb
      have hyz : lt y z = true := (List.chain'_cons.mp hc).1
      rcases List.mem_cons.mp hb with rfl | hb'
      · exact hyz
      · have hcz : List.Chain' (fun a b => lt a b = true) (z :: t') :=
          (List.chain'_cons.mp hc).2
        have hnz : ∀ x ∈ z :: t', numeric x = true :=
          fun x hx => hn x (List.mem_cons_of_mem _ hx)
        exact lt_trans_numeric (hn y (List.mem_cons_self _ _))
          (hnz z (List.mem_cons_self _ _)) hyz (ih hcz hnz b hb')

theorem chain_lt_pairwise :
    ∀ {l : List Surreal}, List.Chain' (fun a b => lt a b = true) l →
      (∀ x ∈ l, numeric x = true) →
      List.Pairwise (fun a b => lt a b = true) l := by
  intro l
  induction l with
  | nil => intro _ _; exact List.Pairwise.nil
  | cons y t ih =>
      intro hc hn
      have hct : List.Chain' (fun a b => lt a b = true) t := hc.tail
      have hnt : ∀ x ∈ t, numeric x = true :=
        fun x hx => hn x (List.mem_cons_of_mem _ hx)
      exact List.pairwise_cons.mpr ⟨chain_lt_head_all hc hn, ih hct hnt⟩

/-- Each element is `<=` the last element of a strictly ascending list of
hereditarily valid numbers. -/
theorem le_getLast_of_chain :
    ∀ {l : List Surreal} {m : Surreal},
      List.Chain' (fun a b => lt a b = true) l →
      (∀ x ∈ l, numeric x = true) → l.getLast? = some m →
      ∀ x ∈ l, le x m = true := by
  intro l
  induction l with
  | nil => intro m _ _ h; cases h
  | cons y t ih =>
      intro m hc hn hlast x hx
      cases t with
      | nil =>
          have hym : y = m := by simpa using hlast
          have hxy : x = y := List.mem_singleton.mp hx
          rw [hxy, hym]
          exact le_refl m
      | cons z t' =>
          have h1 : lt y z = true := (List.chain'_cons.mp hc).1
          have hct : List.Chain' (fun a b => lt a b = true) (z :: t') :=
            (List.chain'_cons.mp hc).2
          have hnt : ∀ u ∈ z :: t', numeric u = true :=
            fun u hu => hn u (List.mem_cons_of_mem _ hu)
          have hlast' : (z :: t').getLast? = some m := hlast
          have hIH := ih hct hnt hlast'
          rcases List.mem_cons.mp hx with hxy | hx'
          · have hyz : le y z = true :=
              le_of_not_le (hnt z (List.mem_cons_self _ _))
                (hn y (List.mem_cons_self _ _)) (lt_iff.mp h1)
            rw [hxy]
            exact le_trans hyz (hIH z (List.mem_cons_self _ _))
          · exact hIH x hx'

/-- The first element of a strictly ascending list of hereditarily valid
numbers is `<=` each element. -/
theorem head_le_of_chain :
    ∀ {l : List Surreal} {m : Surreal},
      List.Chain' (fun a b => lt a b = true) l →
      (∀ x ∈ l, numeric x = true) → l.head? = some m →
      ∀ x ∈ l, le m x = true := by
  intro l
  induction l with
  | nil => intro m _ _ h; cases h
  | cons y t ih =>
      intro m hc hn hhead x hx
      have hym : y = m := by simpa using hhead
      rw [← hym]
      rcases List.mem_cons.mp hx with hxy | hx'
      · rw [hxy]; exact le_refl y
      · cases t with
        | nil => cases hx'
        | cons z t' =>
            have h1 : lt y z = true := (List.chain'_cons.mp hc).1
            have hct : List.Chain' (fun a b => lt a b = true) (z :: t') :=
              (List.chain'_cons.mp hc).2
            have hnt : ∀ u ∈ z :: t', numeric u = true :=
              fun u hu => hn u (List.mem_cons_of_mem _ hu)
            have hIH : ∀ u ∈ z :: t', le z u = true := ih hct hnt rfl
            have hyz : le y z = true :=
              le_of_not_le (hnt z (List.mem_cons_self _ _))
                (hn y (List.mem_cons_self _ _)) (lt_iff.mp h1)
            exact le_trans hyz (hIH x hx')

/-- Inserting an element strictly above everything in the set appends it. -/
theorem sinsert_of_all_lt {x : Surreal} :
    ∀ {s : List Surreal}, numeric x = true → (∀ y ∈ s, numeric y = true) →
      (∀ y ∈ s, lt y x = true) → sinsert x s = s ++ [x] := by
  intro s hnx hns h
  induction s with
  | nil => rfl
  | cons y ys ih =>
      have hyx : lt y x = true := h y (List.mem_cons_self _ _)
      have hny : numeric y = true := hns y (List.mem_cons_self _ _)
      have hxy : ¬ lt x y = true := by
        rw [lt_iff]
        intro hyx'
        exact hyx' (le_of_not_le hnx hny (lt_iff.mp hyx))
      rw [sinsert, if_neg hxy, if_pos hyx,
        ih (fun u hu => hns u (List.mem_cons_of_mem _ hu))
           (fun u hu => h u (List.mem_cons_of_mem _ hu))]
      rfl

/-- Re-emplacing the elements of an ascending set of hereditarily valid
numbers (the non-simplify constructor branch) reproduces the same set. -/
theorem toSet_of_chain {l : List Surreal}
    (hc : List.Chain' (fun a b => lt a b = true) l)
    (hn : ∀ x ∈ l, numeric x = true) : toSet l = l := by
  have H : ∀ (t acc : List Surreal),
      (∀ x ∈ t, numeric x = true) → (∀ a ∈ acc, numeric a = true) →
      List.Pairwise (fun a b => lt a b = true) t →
      (∀ a ∈ acc, ∀ x ∈ t, lt a x = true) →
      List.foldl (fun s x => sinsert x s) acc t = acc ++ t := by
    intro t
    induction t with
    | nil => intro acc _ _ _ _; simp
    | cons x t' ih =>
        intro acc hnt hnacc hp hcross
        have hnx : numeric x = true := hnt x (List.mem_cons_self _ _)
        have hins : sinsert x acc = acc ++ [x] :=
          sinsert_of_all_lt hnx hnacc
            (fun a ha => hcross a ha x (List.mem_cons_self _ _))
        simp only [List.foldl_cons, hins]
        rw [ih (acc ++ [x])
          (fun u hu => hnt u (List.mem_cons_of_mem _ hu))
          (fun a ha => by
            rcases List.mem_append.mp ha with h | h
            · exact hnacc a h
            · rcases List.mem_singleton.mp h with rfl; exact hnx)
          (List.pairwise_cons.mp hp).2
          (fun a ha z hz => by
            rcases List.mem_append.mp ha with h | h
            · exact hcross a h z (List.mem_cons_of_mem _ hz)
            · rcases List.mem_singleton.mp h with rfl
              exact (List.pairwise_cons.mp hp).1 z hz)]
        simp
  have := H l [] hn (by intro a ha; cases ha) (chain_lt_pairwise hc hn)
    (by intro a ha; cases ha)
  simpa [toSet] using this

/-- A number `{SL | SR}` whose options are elements of `{L | R}` that bound
the latter's options is Comparator-equal to `{L | R}`. -/
theorem eqS_of_bounds {L R SL SR : List Surreal}
    (FL1 : ∀ x ∈ SL, x ∈ L) (FL2 : ∀ l ∈ L, ∃ m ∈ SL, le l m = true)
    (FR1 : ∀ x ∈ SR, x ∈ R) (FR2 : ∀ r ∈ R, ∃ m ∈ SR, le m r = true) :
    eqS (mk SL SR) (mk L R) = true := by
  refine eqS_iff.mpr ⟨?_, ?_⟩
  · refine le_iff.mpr ⟨fun l hl => ?_, fun r hr => ?_⟩
    · exact not_le_of_mem_left (s := mk L R)
        (by simpa using FL1 l (by simpa using hl))
    · intro hcontra
      rcases FR2 r (by simpa using hr) with ⟨m, hm, hmr⟩
      exact (le_iff.mp hcontra).2 m (by simpa using hm) hmr
  · refine le_iff.mpr ⟨fun l hl => ?_, fun r hr => ?_⟩
    · intro hcontra
      rcases FL2 l (by simpa using hl) with ⟨m, hm, hlm⟩
      exact (le_iff.mp hcontra).1 m (by simpa using hm) hlm
    · exact not_le_of_mem_right (s := mk L R)
        (by simpa using FR1 r (by simpa using hr))

/-- Core of C4: keeping only the greatest left element and the smallest
right element does not change the Comparator equivalence class. -/
theorem simplified_eqS {L R : List Surreal}
    (hnL : ∀ x ∈ L, numeric x = true) (hnR : ∀ x ∈ R, numeric x = true)
    (hcL : List.Chain' (fun a b => lt a b = true) L)
    (hcR : List.Chain' (fun a b => lt a b = true) R) :
    eqS (mk (match L.getLast? with | some m => [m] | none => [])
            (match R.head? with | some m => [m] | none => []))
        (mk L R) = true := by
  cases hL : L.getLast? with
  | none =>
      have hLnil : L = [] := by
        cases L with
        | nil => rfl
        | cons a t => simp at hL
      subst hLnil
      cases hR : R.head? with
      | none =>
          have hRnil : R = [] := by
            cases R with
            | nil => rfl
            | cons a t => simp at hR
          subst hRnil
          exact eqS_of_bounds (fun x hx => absurd hx (by simp))
            (fun l hl => absurd hl (by simp))
            (fun x hx => absurd hx (by simp))
            (fun r hr => absurd hr (by simp))
      | some m =>
          have hmem : m ∈ R := by
            cases R with
            | nil => cases hR
            | cons z t =>
                simp only [List.head?_cons, Option.some.injEq] at hR
                subst hR; exact List.mem_cons_self _ _
          exact eqS_of_bounds (fun x hx => absurd hx (by simp))
            (fun l hl => absurd hl (by simp))
            (fun x hx => by rcases List.mem_singleton.mp hx with rfl; exact hmem)
            (fun r hr => ⟨m, List.mem_singleton.mpr rfl,
              head_le_of_chain hcR hnR hR r hr⟩)
  | some m =>
      have hmem : m ∈ L := List.mem_of_mem_getLast? hL
      cases hR : R.head? with
      | none =>
          have hRnil : R = [] := by
            cases R with
            | nil => rfl
            | cons a t => simp at hR
          subst hRnil
          exact eqS_of_bounds
            (fun x hx => by rcases List.mem_singleton.mp hx with rfl; exact hmem)
            (fun l hl => ⟨m, List.mem_singleton.mpr rfl,
              le_getLast_of_chain hcL hnL hL l hl⟩)
            (fun x hx => absurd hx (by simp))
            (fun r hr => absurd hr (by simp))
      | some m' =>
          have hmem' : m' ∈ R := by
            cases R with
            | nil => cases hR
            | cons z t =>
                simp only [List.head?_cons, Option.some.injEq] at hR
                subst hR; exact List.mem_cons_self _ _
          exact eqS_of_bounds
            (fun x hx => by rcases List.mem_singleton.mp hx with rfl; exact hmem)
            (fun l hl => ⟨m, List.mem_singleton.mpr rfl,
              le_getLast_of_chain hcL hnL hL l hl⟩)
            (fun x hx => by rcases List.mem_singleton.mp hx with rfl; exact hmem')
            (fun r hr => ⟨m', List.mem_singleton.mpr rfl,
              head_le_of_chain hcR hnR hR r hr⟩)

/-! ### Errors -/

/-- The failure conditions of the C++ code.  The first two are the
`std::runtime_error`s thrown by `surreals.cpp`; `badFunctionCall` is the
`std::bad_function_call` raised when a default-constructed (never set)
`std::function` is invoked; `outOfFuel` is an artifact of the fuel-indexed
embedding and never occurs when the fuel dominates the recursion depth. -/
inductive Err : Type where
  | invalidConstruction
  | unboundedSet
  | badFunctionCall
  | outOfFuel
deriving DecidableEq

/-! ### The constructors taking sets / a pair of numbers -/

/-- `Surreal::Surreal(std::set<Surreal> const&, std::set<Surreal> const&, bool)`
(`surreals.cpp` lines 16-40).  The out-of-class definition adds the default
argument `simplify = true` (line 18), so the two-argument constructions
performed inside `surreals.cpp` itself (`operator+` line 306, `operator*`
line 429, `operator-` line 362, the integer constructor line 59) all run
with `simplify = true`. -/
def ctor (leftIn rightIn : List Surreal) (simplify : Bool) : Except Err Surreal :=
  if rightIn.any (fun rightElem => leftIn.any fun leftElem => le rightElem leftElem) then
    .error .invalidConstruction
  else if simplify then
    .ok (mk (match leftIn.getLast? with | some m => [m] | none => [])
            (match rightIn.head? with | some m => [m] | none => []))
  else
    .ok (mk (toSet leftIn) (toSet rightIn))

/-- `Surreal::Surreal(Surreal const&, Surreal const&)` (`surreals.cpp`
lines 149-156): requires `sur_left < sur_right`. -/
def ctor2 (sur_left sur_right : Surreal) : Except Err Surreal :=
  if lt sur_left sur_right then .ok (mk [sur_left] [sur_right])
  else .error .invalidConstruction

/-- The number `{ | }` (zero). -/
def zero : Surreal := mk [] []

/-- The canonical one, `{ { | } | }`, as produced by `Surreal(1)`. -/
def one : Surreal := mk [zero] []

/-- The canonical two, as produced by `Surreal(2)`. -/
def two : Surreal := mk [one] []

/-- The dyadic `1/2 = { 0 | 1 }`. -/
def half : Surreal := mk [zero] [one]

/-! ### The representation invariant of `std::set` members

Every `Surreal` object of the C++ program stores its sets as
`std::set<Surreal>`, so each element list is a strictly ascending chain for
`operator<`, hereditarily. -/

/-- Boolean ascending-chain property of an element list. -/
def chainLtB : List Surreal → Bool
  | [] => true
  | [_] => true
  | x :: y :: t => lt x y && chainLtB (y :: t)

theorem chainLtB_iff : ∀ {l : List Surreal},
    chainLtB l = true ↔ List.Chain' (fun a b => lt a b = true) l := by
  intro l
  induction l with
  | nil => simp [chainLtB]
  | cons x t ih =>
      cases t with
      | nil => simp [chainLtB]
      | cons y t' =>
          rw [chainLtB, List.chain'_cons, Bool.and_eq_true, ih]

/-- Fuel-indexed hereditary `std::set` representation invariant. -/
def srF : Nat → Surreal → Bool
  | 0, _ => false
  | n + 1, s =>
      chainLtB s.left && chainLtB s.right &&
      (s.left.all fun l => srF n l) && (s.right.all fun r => srF n r)

/-- Hereditary `std::set` representation invariant with sufficient fuel. -/
def sortedRep (s : Surreal) : Bool := srF (size s) s

theorem srF_irrel : ∀ n m s, size s ≤ n → size s ≤ m →
    srF n s = srF m s := by
  intro n
  induction n using Nat.strong_induction_on with
  | _ n ih =>
    intro m s hn hm
    have hpos := size_pos s
    match n, m with
    | 0, _ => omega
    | _ + 1, 0 => omega
    | n' + 1, m' + 1 =>
      simp only [srF]
      congr 1
      · congr 1
        refine all_congr_mem fun l hl => ?_
        have := size_lt_of_mem_left hl
        rw [ih n' (by omega) m' l (by omega) (by omega)]
      · refine all_congr_mem fun r hr => ?_
        have := size_lt_of_mem_right hr
        rw [ih n' (by omega) m' r (by omega) (by omega)]

theorem srF_eq_sortedRep {n : Nat} {s : Surreal} (h : size s ≤ n) :
    srF n s = sortedRep s :=
  srF_irrel n (size s) s h (Nat.le_refl _)

theorem sortedRep_iff {s : Surreal} :
    sortedRep s = true ↔
      chainLtB s.left = true ∧ chainLtB s.right = true ∧
      (∀ l ∈ s.left, sortedRep l = true) ∧
      (∀ r ∈ s.right, sortedRep r = true) := by
  have hpos := size_pos s
  conv_lhs => rw [sortedRep]
  rcases Nat.exists_eq_add_of_le hpos with ⟨k, hk⟩
  rw [show size s = k + 1 by omega]
  rw [srF]
  have h1 : (s.left.all fun l => srF k l) = s.left.all fun l => sortedRep l :=
    all_congr_mem fun l hl => srF_eq_sortedRep
      (by have := size_lt_of_mem_left hl; omega)
  have h2 : (s.right.all fun r => srF k r) = s.right.all fun r => sortedRep r :=
    all_congr_mem fun r hr => srF_eq_sortedRep
      (by have := size_lt_of_mem_right hr; omega)
  rw [h1, h2]
  simp [List.all_eq_true, and_assoc]

theorem chain_left_of_sortedRep {s : Surreal} (h : sortedRep s = true) :
    List.Chain' (fun a b => lt a b = true) s.left :=
  chainLtB_iff.mp (sortedRep_iff.mp h).1

theorem chain_right_of_sortedRep {s : Surreal} (h : sortedRep s = true) :
    List.Chain' (fun a b => lt a b = true) s.right :=
  chainLtB_iff.mp (sortedRep_iff.mp h).2.1

/-- `head?` membership helper. -/
theorem mem_of_head? {α : Type} {l : List α} {m : α}
    (h : l.head? = some m) : m ∈ l := by
  cases l with
  | nil => cases h
  | cons a t =>
      simp only [List.head?_cons, Option.some.injEq] at h
      rw [← h]
      exact List.mem_cons_self _ _

/-! ### `Surreal::Float()`

The C++ `Float()` computes with IEEE `float`s; the model uses exact
rationals for the same operations (`+ 1.0`, `- 1.0`, halving a sum), which
coincide with the `float` results on the small dyadic values exercised
here.  A `std::set<float>` is modelled as a sorted duplicate-free list of
rationals built by repeated `qinsert`. -/

/-- `std::set<float>::insert`. -/
def qinsert (x : ℚ) : List ℚ → List ℚ
  | [] => [x]
  | y :: ys =>
      if x < y then x :: y :: ys
      else if y < x then y :: qinsert x ys
      else y :: ys

/-- Building a `std::set<float>` from a list of values. -/
def qset (l : List ℚ) : List ℚ :=
  l.foldl (fun s x => qinsert x s) []

/-- Fuel-indexed embedding of `Surreal::Float()` (`surreals.cpp` lines
574-608): recursively convert both sets, then case on emptiness — both
empty gives `0`; only left nonempty gives its maximum plus one; only right
nonempty gives its minimum minus one; otherwise the midpoint of the left
maximum and right minimum (`(*floatset_right.begin() +
*floatset_left.rbegin()) / 2`). -/
def floatQF : Nat → Surreal → ℚ
  | 0, _ => 0
  | n + 1, s =>
      let fl := qset (s.left.map (floatQF n))
      let fr := qset (s.right.map (floatQF n))
      match fl.getLast?, fr.head? with
      | none, none => 0
      | none, some mn => mn - 1
      | some mx, none => mx + 1
      | some mx, some mn => (mn + mx) / 2

/-- `Surreal::Float()` with sufficient fuel. -/
def FloatQ (s : Surreal) : ℚ := floatQF (size s) s

theorem floatQF_irrel : ∀ n m s, size s ≤ n → size s ≤ m →
    floatQF n s = floatQF m s := by
  intro n
  induction n using Nat.strong_induction_on with
  | _ n ih =>
    intro m s hn hm
    have hpos := size_pos s
    match n, m with
    | 0, _ => omega
    | _ + 1, 0 => omega
    | n' + 1, m' + 1 =>
      simp only [floatQF]
      have hl : s.left.map (floatQF n') = s.left.map (floatQF m') :=
        List.map_congr_left fun l hl => by
          have := size_lt_of_mem_left hl
          exact ih n' (by omega) m' l (by omega) (by omega)
      have hr : s.right.map (floatQF n') = s.right.map (floatQF m') :=
        List.map_congr_left fun r hr => by
          have := size_lt_of_mem_right hr
          exact ih n' (by omega) m' r (by omega) (by omega)
      rw [hl, hr]

theorem FloatQ_unfold (s : Surreal) : FloatQ s =
    match (qset (s.left.map FloatQ)).getLast?,
          (qset (s.right.map FloatQ)).head? with
    | none, none => 0
    | none, some mn => mn - 1
    | some mx, none => mx + 1
    | some mx, some mn => (mn + mx) / 2 := by
  have hpos := size_pos s
  conv_lhs => rw [FloatQ]
  rcases Nat.exists_eq_add_of_le hpos with ⟨k, hk⟩
  rw [show size s = k + 1 by omega]
  simp only [floatQF]
  have hl : s.left.map (floatQF k) = s.left.map FloatQ :=
    List.map_congr_left fun l hl => by
      have := size_lt_of_mem_left hl
      exact floatQF_irrel k (size l) l (by omega) (by omega)
  have hr : s.right.map (floatQF k) = s.right.map FloatQ :=
    List.map_congr_left fun r hr => by
      have := size_lt_of_mem_right hr
      exact floatQF_irrel k (size r) r (by omega) (by omega)
  rw [hl, hr]

theorem mem_qinsert {a x : ℚ} :
    ∀ {t : List ℚ}, a ∈ qinsert x t ↔ a = x ∨ a ∈ t := by
  intro t
  induction t with
  | nil => simp [qinsert]
  | cons y ys ih =>
      rw [qinsert]
      split
      · exact List.mem_cons
      · split
        · simp only [List.mem_cons, ih]
          tauto
        · rename_i h1 h2
          have hxy : x = y := le_antisymm (not_lt.mp h2) (not_lt.mp h1)
          subst hxy
          simp only [List.mem_cons]
          tauto

theorem pairwise_qinsert {x : ℚ} :
    ∀ {t : List ℚ}, List.Pairwise (· < ·) t →
      List.Pairwise (· < ·) (qinsert x t) := by
  intro t hp
  induction t with
  | nil => simp [qinsert]
  | cons y ys ih =>
      rw [qinsert]
      split
      · rename_i h1
        refine List.pairwise_cons.mpr ⟨?_, hp⟩
        intro b hb
        rcases List.mem_cons.mp hb with rfl | hb'
        · exact h1
        · exact lt_trans h1 ((List.pairwise_cons.mp hp).1 b hb')
      · split
        · rename_i h1 h2
          refine List.pairwise_cons.mpr ⟨?_, ih (List.pairwise_cons.mp hp).2⟩
          intro b hb
          rcases mem_qinsert.mp hb with rfl | hb'
          · exact h2
          · exact (List.pairwise_cons.mp hp).1 b hb'
        · exact hp

theorem mem_qset {a : ℚ} {l : List ℚ} : a ∈ qset l ↔ a ∈ l := by
  have H : ∀ (t acc : List ℚ),
      (a ∈ t.foldl (fun s x => qinsert x s) acc ↔ a ∈ acc ∨ a ∈ t) := by
    intro t
    induction t with
    | nil => intro acc; simp
    | cons x t' ih =>
        intro acc
        simp only [List.foldl_cons, ih, mem_qinsert, List.mem_cons]
        tauto
  have := H l []
  simp only [qset, this]
  simp

theorem pairwise_qset (l : List ℚ) : List.Pairwise (· < ·) (qset l) := by
  have H : ∀ (t acc : List ℚ), List.Pairwise (· < ·) acc →
      List.Pairwise (· < ·) (t.foldl (fun s x => qinsert x s) acc) := by
    intro t
    induction t with
    | nil => intro acc h; simpa
    | cons x t' ih =>
        intro acc h
        simp only [List.foldl_cons]
        exact ih _ (pairwise_qinsert h)
  exact H l [] List.Pairwise.nil

theorem pairwise_getLast_bound {t : List ℚ} {m : ℚ}
    (hp : List.Pairwise (· < ·) t) (hlast : t.getLast? = some m) :
    ∀ x ∈ t, x ≤ m := by
  induction t with
  | nil => cases hlast
  | cons y ys ih =>
      intro x hx
      cases ys with
      | nil =>
          have hym : y = m := by simpa using hlast
          have hxy : x = y := List.mem_singleton.mp hx
          rw [hxy, hym]
      | cons z t' =>
          have hlast' : (z :: t').getLast? = some m := hlast
          have hp' := (List.pairwise_cons.mp hp).2
          have hm : m ∈ z :: t' := List.mem_of_mem_getLast? hlast'
          rcases List.mem_cons.mp hx with rfl | hx'
          · exact le_of_lt ((List.pairwise_cons.mp hp).1 m hm)
          · exact ih hp' hlast' x hx'

theorem pairwise_head_bound {t : List ℚ} {m : ℚ}
    (hp : List.Pairwise (· < ·) t) (hhead : t.head? = some m) :
    ∀ x ∈ t, m ≤ x := by
  cases t with
  | nil => cases hhead
  | cons y ys =>
      have hym : y = m := by simpa using hhead
      intro x hx
      rcases List.mem_cons.mp hx with rfl | hx'
      · rw [hym]
      · rw [← hym]
        exact le_of_lt ((List.pairwise_cons.mp hp).1 x hx')

theorem qset_ne_nil {l : List ℚ} (h : l ≠ []) : qset l ≠ [] := by
  rcases List.exists_mem_of_ne_nil l h with ⟨a, ha⟩
  intro hq
  have hmem : a ∈ qset l := mem_qset.mpr ha
  rw [hq] at hmem
  exact List.not_mem_nil a hmem

/-! ### The memo-free reference sum

`padd` is the value computed by the raw recursive formula of `operator+`
(`surreals.cpp` lines 292-306) with no lookup table, no canonicalisation,
no set-deduplication and no simplification: plain option lists.  The
stateful `addF` below is proved to return values Comparator-equal to it: a
proof device for relating the memoized engine to the mathematical
recursion. -/

/-- Fuel-indexed reference sum: `a+b = { Al+b, Bl+a | Ar+b, Br+a }`. -/
def paddF : Nat → Surreal → Surreal → Surreal
  | 0, _, _ => zero
  | n + 1, a, b =>
      mk ((a.left.map fun l => paddF n l b) ++ (b.left.map fun l => paddF n l a))
         ((a.right.map fun r => paddF n r b) ++ (b.right.map fun r => paddF n r a))

/-- The reference sum with sufficient fuel. -/
def padd (a b : Surreal) : Surreal := paddF (size a + size b) a b

theorem paddF_irrel : ∀ n m a b, size a + size b ≤ n →
    size a + size b ≤ m → paddF n a b = paddF m a b := by
  intro n
  induction n using Nat.strong_induction_on with
  | _ n ih =>
    intro m a b hn hm
    have hpa := size_pos a
    have hpb := size_pos b
    match n, m with
    | 0, _ => omega
    | _ + 1, 0 => omega
    | n' + 1, m' + 1 =>
      simp only [paddF]
      congr 1
      · congr 1
        · exact List.map_congr_left fun l hl => by
            have := size_lt_of_mem_left hl
            exact ih n' (by omega) m' l b (by omega) (by omega)
        · exact List.map_congr_left fun l hl => by
            have := size_lt_of_mem_left hl
            exact ih n' (by omega) m' l a (by omega) (by omega)
      · congr 1
        · exact List.map_congr_left fun r hr => by
            have := size_lt_of_mem_right hr
            exact ih n' (by omega) m' r b (by omega) (by omega)
        · exact List.map_congr_left fun r hr => by
            have := size_lt_of_mem_right hr
            exact ih n' (by omega) m' r a (by omega) (by omega)

theorem padd_unfold (a b : Surreal) : padd a b =
    mk ((a.left.map fun l => padd l b) ++ (b.left.map fun l => padd l a))
       ((a.right.map fun r => padd r b) ++ (b.right.map fun r => padd r a)) := by
  have hpa := size_pos a
  have hpb := size_pos b
  conv_lhs => rw [padd]
  rcases Nat.exists_eq_add_of_le (show 1 ≤ size a + size b by omega) with ⟨k, hk⟩
  rw [show size a + size b = k + 1 by omega]
  simp only [paddF]
  congr 1
  · congr 1
    · exact List.map_congr_left fun l hl => by
        have := size_lt_of_mem_left hl
        exact paddF_irrel k _ l b (by omega) (Nat.le_refl _)
    · exact List.map_congr_left fun l hl => by
        have := size_lt_of_mem_left hl
        exact paddF_irrel k _ l a (by omega) (Nat.le_refl _)
  · congr 1
    · exact List.map_congr_left fun r hr => by
        have := size_lt_of_mem_right hr
        exact paddF_irrel k _ r b (by omega) (Nat.le_refl _)
    · exact List.map_congr_left fun r hr => by
        have := size_lt_of_mem_right hr
        exact paddF_irrel k _ r a (by omega) (Nat.le_refl _)

theorem padd_left (a b : Surreal) : (padd a b).left =
    (a.left.map fun l => padd l b) ++ (b.left.map fun l => padd l a) := by
  rw [padd_unfold]
  rfl

theorem padd_right (a b : Surreal) : (padd a b).right =
    (a.right.map fun r => padd r b) ++ (b.right.map fun r => padd r a) := by
  rw [padd_unfold]
  rfl

theorem mem_padd_left {x a b : Surreal} :
    x ∈ (padd a b).left ↔
      (∃ l ∈ a.left, x = padd l b) ∨ (∃ l ∈ b.left, x = padd l a) := by
  rw [padd_left]
  simp only [List.mem_append, List.mem_map]
  constructor
  · rintro (⟨l, hl, rfl⟩ | ⟨l, hl, rfl⟩)
    · exact Or.inl ⟨l, hl, rfl⟩
    · exact Or.inr ⟨l, hl, rfl⟩
  · rintro (⟨l, hl, rfl⟩ | ⟨l, hl, rfl⟩)
    · exact Or.inl ⟨l, hl, rfl⟩
    · exact Or.inr ⟨l, hl, rfl⟩

theorem mem_padd_right {x a b : Surreal} :
    x ∈ (padd a b).right ↔
      (∃ r ∈ a.right, x = padd r b) ∨ (∃ r ∈ b.right, x = padd r a) := by
  rw [padd_right]
  simp only [List.mem_append, List.mem_map]
  constructor
  · rintro (⟨r, hr, rfl⟩ | ⟨r, hr, rfl⟩)
    · exact Or.inl ⟨r, hr, rfl⟩
    · exact Or.inr ⟨r, hr, rfl⟩
  · rintro (⟨r, hr, rfl⟩ | ⟨r, hr, rfl⟩)
    · exact Or.inl ⟨r, hr, rfl⟩
    · exact Or.inr ⟨r, hr, rfl⟩

/-- The reference sum is commutative up to structural equality of option
multisets, hence Comparator-equal. -/
theorem padd_comm (a b : Surreal) : eqS (padd a b) (padd b a) = true := by
  refine eqS_of_options ?_ ?_ ?_ ?_
  · intro l hl
    rcases mem_padd_left.mp hl with ⟨u, hu, rfl⟩ | ⟨u, hu, rfl⟩
    · have hm : padd u b ∈ (padd b a).left :=
        mem_padd_left.mpr (Or.inr ⟨u, hu, rfl⟩)
      exact ⟨padd u b, hm, eqS_refl _⟩
    · have hm : padd u a ∈ (padd b a).left :=
        mem_padd_left.mpr (Or.inl ⟨u, hu, rfl⟩)
      exact ⟨padd u a, hm, eqS_refl _⟩
  · intro r hr
    rcases mem_padd_right.mp hr with ⟨u, hu, rfl⟩ | ⟨u, hu, rfl⟩
    · have hm : padd u a ∈ (padd a b).right :=
        mem_padd_right.mpr (Or.inr ⟨u, hu, rfl⟩)
      exact ⟨padd u a, hm, eqS_refl _⟩
    · have hm : padd u b ∈ (padd a b).right :=
        mem_padd_right.mpr (Or.inl ⟨u, hu, rfl⟩)
      exact ⟨padd u b, hm, eqS_refl _⟩
  · intro l hl
    rcases mem_padd_left.mp hl with ⟨u, hu, rfl⟩ | ⟨u, hu, rfl⟩
    · have hm : padd u a ∈ (padd a b).left :=
        mem_padd_left.mpr (Or.inr ⟨u, hu, rfl⟩)
      exact ⟨padd u a, hm, eqS_refl _⟩
    · have hm : padd u b ∈ (padd a b).left :=
        mem_padd_left.mpr (Or.inl ⟨u, hu, rfl⟩)
      exact ⟨padd u b, hm, eqS_refl _⟩
  · intro r hr
    rcases mem_padd_right.mp hr with ⟨u, hu, rfl⟩ | ⟨u, hu, rfl⟩
    · have hm : padd u b ∈ (padd b a).right :=
        mem_padd_right.mpr (Or.inr ⟨u, hu, rfl⟩)
      exact ⟨padd u b, hm, eqS_refl _⟩
    · have hm : padd u a ∈ (padd b a).right :=
        mem_padd_right.mpr (Or.inl ⟨u, hu, rfl⟩)
      exact ⟨padd u a, hm, eqS_refl _⟩

/-- Monotonicity of the reference sum in its left argument
(`x <= y → x + z <= y + z`), by simultaneous induction. -/
theorem add_le_add_right :
    ∀ {x y z : Surreal}, le x y = true →
      le (padd x z) (padd y z) = true := by
  have H : ∀ n x y z, size x + size y + size z ≤ n → le x y = true →
      le (padd x z) (padd y z) = true := by
    intro n
    induction n using Nat.strong_induction_on with
    | _ n ih =>
      intro x y z hn h
      refine le_iff.mpr ⟨?_, ?_⟩
      · intro L hL hcontra
        rcases mem_padd_left.mp hL with ⟨xl, hxl, rfl⟩ | ⟨zl, hzl, rfl⟩
        · have hnotyxl : ¬ le y xl = true := (le_iff.mp h).1 xl hxl
          have hsxl := size_lt_of_mem_left hxl
          rcases not_le_iff.mp hnotyxl with ⟨yl, hyl, hxlyl⟩ | ⟨xlr, hxlr, hxlry⟩
          · have hsyl := size_lt_of_mem_left hyl
            have h1 := ih (n - 1) (by omega) xl yl z (by omega) hxlyl
            have hmem : padd yl z ∈ (padd y z).left :=
              mem_padd_left.mpr (Or.inl ⟨yl, hyl, rfl⟩)
            exact not_le_of_mem_left hmem (le_trans hcontra h1)
          · have hsxlr := size_lt_of_mem_right hxlr
            have h1 := ih (n - 1) (by omega) xlr y z (by omega) hxlry
            have hmem : padd xlr z ∈ (padd xl z).right :=
              mem_padd_right.mpr (Or.inl ⟨xlr, hxlr, rfl⟩)
            exact (le_iff.mp hcontra).2 _ hmem h1
        · have hszl := size_lt_of_mem_left hzl
          have h1 := ih (n - 1) (by omega) x y zl (by omega) h
          have hmem : padd zl y ∈ (padd y z).left :=
            mem_padd_left.mpr (Or.inr ⟨zl, hzl, rfl⟩)
          refine not_le_of_mem_left hmem ?_
          have e1 : le (padd zl x) (padd x zl) = true :=
            (eqS_iff.mp (padd_comm zl x)).1
          have e2 : le (padd y zl) (padd zl y) = true :=
            (eqS_iff.mp (padd_comm y zl)).1
          exact le_trans (le_trans (le_trans hcontra e1) h1) e2
      · intro R hR hcontra
        rcases mem_padd_right.mp hR with ⟨yr, hyr, rfl⟩ | ⟨zr, hzr, rfl⟩
        · have hnotyrx : ¬ le yr x = true := (le_iff.mp h).2 yr hyr
          have hsyr := size_lt_of_mem_right hyr
          rcases not_le_iff.mp hnotyrx with ⟨yrl, hyrl, hxyrl⟩ | ⟨xr, hxr, hxryr⟩
          · have hsyrl := size_lt_of_mem_left hyrl
            have h1 := ih (n - 1) (by omega) x yrl z (by omega) hxyrl
            have hmem : padd yrl z ∈ (padd yr z).left :=
              mem_padd_left.mpr (Or.inl ⟨yrl, hyrl, rfl⟩)
            exact (le_iff.mp hcontra).1 _ hmem h1
          · have hsxr := size_lt_of_mem_right hxr
            have h1 := ih (n - 1) (by omega) xr yr z (by omega) hxryr
            have hmem : padd xr z ∈ (padd x z).right :=
              mem_padd_right.mpr (Or.inl ⟨xr, hxr, rfl⟩)
            exact (le_iff.mp hcontra).2 _ hmem h1
        · have hszr := size_lt_of_mem_right hzr
          have h1 := ih (n - 1) (by omega) x y zr (by omega) h
          have hmem : padd zr x ∈ (padd x z).right :=
            mem_padd_right.mpr (Or.inr ⟨zr, hzr, rfl⟩)
          refine not_le_of_mem_right hmem ?_
          have e1 : le (padd zr x) (padd x zr) = true :=
            (eqS_iff.mp (padd_comm zr x)).1
          have e2 : le (padd y zr) (padd zr y) = true :=
            (eqS_iff.mp (padd_comm y zr)).1
          exact le_trans (le_trans (le_trans e1 h1) e2) hcontra
  exact fun {x y z} h => H (size x + size y + size z) x y z (Nat.le_refl _) h

/-- `x + 0` is Comparator-equal to `x`. -/
theorem padd_zero : ∀ (x : Surreal), eqS (padd x zero) x = true := by
  have H : ∀ n x, size x ≤ n → eqS (padd x zero) x = true := by
    intro n
    induction n using Nat.strong_induction_on with
    | _ n ih =>
      intro x hn
      have hpos := size_pos x
      refine eqS_of_options ?_ ?_ ?_ ?_
      · intro l hl
        rcases mem_padd_left.mp hl with ⟨u, hu, rfl⟩ | ⟨u, hu, _⟩
        · have := size_lt_of_mem_left hu
          exact ⟨u, hu, ih (n - 1) (by omega) u (by omega)⟩
        · cases hu
      · intro r hr
        have := size_lt_of_mem_right hr
        refine ⟨padd r zero, mem_padd_right.mpr (Or.inl ⟨r, hr, rfl⟩), ?_⟩
        exact eqS_symm (ih (n - 1) (by omega) r (by omega))
      · intro l hl
        have := size_lt_of_mem_left hl
        refine ⟨padd l zero, mem_padd_left.mpr (Or.inl ⟨l, hl, rfl⟩), ?_⟩
        exact eqS_symm (ih (n - 1) (by omega) l (by omega))
      · intro r hr
        rcases mem_padd_right.mp hr with ⟨u, hu, rfl⟩ | ⟨u, hu, _⟩
        · have := size_lt_of_mem_right hu
          exact ⟨u, hu, ih (n - 1) (by omega) u (by omega)⟩
        · cases hu
  exact fun x => H (size x) x (Nat.le_refl _)

/-- Monotonicity of the reference sum in its right argument. -/
theorem add_le_add_left {u v x : Surreal} (h : le u v = true) :
    le (padd x u) (padd x v) = true := by
  have e1 : le (padd x u) (padd u x) = true := (eqS_iff.mp (padd_comm x u)).1
  have e2 : le (padd v x) (padd x v) = true := (eqS_iff.mp (padd_comm v x)).1
  exact le_trans (le_trans e1 (add_le_add_right h)) e2

/-- Right cancellation for the reference sum
(`x + z <= y + z → x <= y`). -/
theorem le_of_add_le_add_right {x y z : Surreal}
    (h : le (padd x z) (padd y z) = true) : le x y = true := by
  by_contra hxy
  rcases not_le_iff.mp hxy with ⟨xl, hxl, hyxl⟩ | ⟨yr, hyr, hyrx⟩
  · have h1 : le (padd y z) (padd xl z) = true := add_le_add_right hyxl
    have hmem : padd xl z ∈ (padd x z).left :=
      mem_padd_left.mpr (Or.inl ⟨xl, hxl, rfl⟩)
    exact (le_iff.mp h).1 _ hmem h1
  · have h1 : le (padd yr z) (padd x z) = true := add_le_add_right hyrx
    have hmem : padd yr z ∈ (padd y z).right :=
      mem_padd_right.mpr (Or.inl ⟨yr, hyr, rfl⟩)
    exact (le_iff.mp h).2 _ hmem h1

/-- The reference sum respects Comparator equality in both arguments. -/
theorem padd_congr {a a' b b' : Surreal} (ha : eqS a a' = true)
    (hb : eqS b b' = true) : eqS (padd a b) (padd a' b') = true := by
  rcases eqS_iff.mp ha with ⟨ha1, ha2⟩
  rcases eqS_iff.mp hb with ⟨hb1, hb2⟩
  exact eqS_iff.mpr
    ⟨le_trans (add_le_add_right ha1) (add_le_add_left hb1),
     le_trans (add_le_add_right ha2) (add_le_add_left hb2)⟩

/-! The four strict comparisons behind the anti-pseudo-number guard of the
sum's result: every right-side candidate term exceeds every left-side
candidate term, for hereditarily valid operands. -/

theorem guard_pair_arar {a b aR aL : Surreal} (ha : numeric a = true)
    (hR : aR ∈ a.right) (hL : aL ∈ a.left) :
    ¬ le (padd aR b) (padd aL b) = true := by
  intro h
  exact numeric_guard ha hR hL (le_of_add_le_add_right h)

theorem guard_pair_arbl {a b aR bL : Surreal}
    (hb : numeric b = true) (hR : aR ∈ a.right) (hL : bL ∈ b.left) :
    ¬ le (padd aR b) (padd bL a) = true := by
  intro h
  have e1 : le (padd bL a) (padd a bL) = true := (eqS_iff.mp (padd_comm bL a)).1
  have h2 : le (padd a bL) (padd a b) = true :=
    add_le_add_left (le_left_option hb bL hL)
  have e2 : le (padd a b) (padd b a) = true := (eqS_iff.mp (padd_comm a b)).1
  have h3 : le (padd aR b) (padd a b) = true :=
    le_trans (le_trans h e1) h2
  exact not_le_of_mem_right hR (le_of_add_le_add_right h3)

theorem guard_pair_bral {a b bR aL : Surreal} (ha : numeric a = true)
    (hR : bR ∈ b.right) (hL : aL ∈ a.left) :
    ¬ le (padd bR a) (padd aL b) = true := by
  intro h
  have h2 : le (padd aL b) (padd a b) = true :=
    add_le_add_right (le_left_option ha aL hL)
  have e1 : le (padd a b) (padd b a) = true := (eqS_iff.mp (padd_comm a b)).1
  have h3 : le (padd bR a) (padd b a) = true :=
    le_trans (le_trans h h2) e1
  exact not_le_of_mem_right hR (le_of_add_le_add_right h3)

theorem guard_pair_brbl {a b bR bL : Surreal} (hb : numeric b = true)
    (hR : bR ∈ b.right) (hL : bL ∈ b.left) :
    ¬ le (padd bR a) (padd bL a) = true := by
  intro h
  exact numeric_guard hb hR hL (le_of_add_le_add_right h)

/-! ### The memoized arithmetic engine -/

/-- `res.left.size() + res.right.size()`: the complexity measure used by
the canonicalisation scan. -/
def termCount (s : Surreal) : Nat := s.left.length + s.right.length

/-- A `std::map<std::pair<Surreal, Surreal>, Surreal>` (`AddLookup` /
`MultLookup`), as its entry list in ascending key order — the order in
which the canonicalisation scan iterates it. -/
abbrev LookupTable := List ((Surreal × Surreal) × Surreal)

/-- `std::minmax(a, b)`: `(b, a)` when `b < a`, else `(a, b)`. -/
def minmax (a b : Surreal) : Surreal × Surreal :=
  if lt b a then (b, a) else (a, b)

/-- Key equivalence of the lookup `std::map`: neither key is
lexicographically smaller, i.e. both components are Comparator-equal. -/
def keyEq (k k' : Surreal × Surreal) : Bool :=
  eqS k.1 k'.1 && eqS k.2 k'.2

/-- The lexicographic strict order on pair keys used by the lookup map. -/
def keyLt (k k' : Surreal × Surreal) : Bool :=
  lt k.1 k'.1 || (! lt k'.1 k.1 && lt k.2 k'.2)

/-- `std::map::find`: the entry with an equivalent key, if any. -/
def tfind (t : LookupTable) (k : Surreal × Surreal) :
    Option ((Surreal × Surreal) × Surreal) :=
  t.find? fun e => keyEq e.1 k

/-- `std::map::emplace`: keyed ordered insertion, a no-op when an
equivalent key is already present. -/
def tinsert (k : Surreal × Surreal) (v : Surreal) :
    LookupTable → LookupTable
  | [] => [(k, v)]
  | e :: es =>
      if keyLt k e.1 then (k, v) :: e :: es
      else if keyLt e.1 k then e :: tinsert k v es
      else e :: es

/-- The canonicalisation scan shared by `operator+` (`surreals.cpp` lines
313-348) and `operator*` (lines 437-470): walk the stored entries in
order; at an entry whose value is Comparator-equal to the fresh result,
adopt the stored value and stop when the result is strictly more complex
(`resSize > eqSize`) or equally complex, and overwrite the entry in place
with the result and continue when the result is strictly simpler. -/
def canonScan (res : Surreal) (resSize : Nat) :
    LookupTable → Surreal × LookupTable
  | [] => (res, [])
  | (k, v) :: rest =>
      if eqS res v then
        if resSize > termCount v then (v, (k, v) :: rest)
        else if resSize < termCount v then
          let p := canonScan res resSize rest
          (p.1, (k, res) :: p.2)
        else (v, (k, v) :: rest)
      else
        let p := canonScan res resSize rest
        (p.1, (k, v) :: p.2)

/-- `operator+(std::set<Surreal> const&, Surreal const&)` (lines 486-490):
add `num` to every element in iteration order, inserting each sum into the
accumulated set, threading the lookup table through the element additions
performed by `addRec`. -/
def addSetNumF
    (addRec : Surreal → Surreal → LookupTable →
      Except Err (Surreal × LookupTable)) :
    List Surreal → Surreal → LookupTable → List Surreal →
      Except Err (List Surreal × LookupTable)
  | [], _, t, acc => .ok (acc, t)
  | x :: xs, num, t, acc =>
      match addRec x num t with
      | .error e => .error e
      | .ok (r, t') => addSetNumF addRec xs num t' (sinsert r acc)

/-- Fuel-indexed embedding of `operator+(Surreal const&, Surreal const&)`
(`surreals.cpp` lines 281-353): look the `minmax` key up in `AddLookup`;
on a miss compute `tempL1 = a.left + b`, `tempR1 = a.right + b`,
`tempL2 = b.left + a`, `tempR2 = b.right + a`, union the pairs, construct
the result from the unions — a two-argument constructor call, hence with
the `simplify = true` default added at line 18 — canonicalise it against
the table, store the final value under the key and return it. -/
def addF : Nat → Surreal → Surreal → LookupTable →
    Except Err (Surreal × LookupTable)
  | 0, _, _, _ => .error .outOfFuel
  | n + 1, a, b, t =>
      match tfind t (minmax a b) with
      | some e => .ok (e.2, t)
      | none =>
          match addSetNumF (addF n) a.left b t [] with
          | .error e => .error e
          | .ok (tempL1, t1) =>
            match addSetNumF (addF n) a.right b t1 [] with
            | .error e => .error e
            | .ok (tempR1, t2) =>
              match addSetNumF (addF n) b.left a t2 [] with
              | .error e => .error e
              | .ok (tempL2, t3) =>
                match addSetNumF (addF n) b.right a t3 [] with
                | .error e => .error e
                | .ok (tempR2, t4) =>
                  match ctor (tempL2.foldl (fun s x => sinsert x s) tempL1)
                             (tempR2.foldl (fun s x => sinsert x s) tempR1)
                             true with
                  | .error e => .error e
                  | .ok res =>
                      let p := canonScan res (termCount res) t4
                      .ok (p.1, tinsert (minmax a b) p.1 p.2)

/-- The addition that claim C2 describes, for comparison with `addF`: the
identical pipeline except that on a miss the raw result is constructed
from the full unioned sets as a non-simplifying number (`simplify =
false`, "retaining every element of both sides"). -/
def addClaimF : Nat → Surreal → Surreal → LookupTable →
    Except Err (Surreal × LookupTable)
  | 0, _, _, _ => .error .outOfFuel
  | n + 1, a, b, t =>
      match tfind t (minmax a b) with
      | some e => .ok (e.2, t)
      | none =>
          match addSetNumF (addClaimF n) a.left b t [] with
          | .error e => .error e
          | .ok (tempL1, t1) =>
            match addSetNumF (addClaimF n) a.right b t1 [] with
            | .error e => .error e
            | .ok (tempR1, t2) =>
              match addSetNumF (addClaimF n) b.left a t2 [] with
              | .error e => .error e
              | .ok (tempL2, t3) =>
                match addSetNumF (addClaimF n) b.right a t3 [] with
                | .error e => .error e
                | .ok (tempR2, t4) =>
                  match ctor (tempL2.foldl (fun s x => sinsert x s) tempL1)
                             (tempR2.foldl (fun s x => sinsert x s) tempR1)
                             false with
                  | .error e => .error e
                  | .ok res =>
                      let p := canonScan res (termCount res) t4
                      .ok (p.1, tinsert (minmax a b) p.1 p.2)

/-- `NegateSet` (`surreals.cpp` lines 511-515): negate every element of the
set in iteration order, inserting each negation into the accumulated set;
`negRec` is the element negation being lifted. -/
def negSetF (negRec : Surreal → Except Err Surreal) :
    List Surreal → List Surreal → Except Err (List Surreal)
  | [], acc => .ok acc
  | x :: xs, acc =>
      match negRec x with
      | .error e => .error e
      | .ok r => negSetF negRec xs (sinsert r acc)

/-- Fuel-indexed embedding of unary `operator-` (`surreals.cpp` lines
358-363): `tempL = NegateSet(right)`, `tempR = NegateSet(left)`, then the
two-argument set-set constructor call `Surreal(tempL, tempR)` — hence with
the `simplify = true` default added at line 18. -/
def negF : Nat → Surreal → Except Err Surreal
  | 0, _ => .error .outOfFuel
  | n + 1, s =>
      match negSetF (negF n) s.right [] with
      | .error e => .error e
      | .ok tempL =>
          match negSetF (negF n) s.left [] with
          | .error e => .error e
          | .ok tempR => ctor tempL tempR true

/-- The inner loop of `operator+(std::set const&, std::set const&)` (lines
497-505): add the fixed `num` on the left of every element of the list,
inserting each sum into the accumulated set and threading the addition
lookup table. -/
def addNumSetF
    (addRec : Surreal → Surreal → LookupTable →
      Except Err (Surreal × LookupTable)) :
    Surreal → List Surreal → LookupTable → List Surreal →
      Except Err (List Surreal × LookupTable)
  | _, [], t, acc => .ok (acc, t)
  | x, y :: ys, t, acc =>
      match addRec x y t with
      | .error e => .error e
      | .ok (r, t') => addNumSetF addRec x ys t' (sinsert r acc)

/-- `operator+(std::set<Surreal> const&, std::set<Surreal> const&)` (lines
497-505): the cross-product sum, iterating the first set in the outer loop
and the second in the inner loop, all sums inserted into one accumulated
set. -/
def addSetSetF
    (addRec : Surreal → Surreal → LookupTable →
      Except Err (Surreal × LookupTable)) :
    List Surreal → List Surreal → LookupTable → List Surreal →
      Except Err (List Surreal × LookupTable)
  | [], _, t, acc => .ok (acc, t)
  | x :: xs, ys, t, acc =>
      match addNumSetF addRec x ys t acc with
      | .error e => .error e
      | .ok (acc', t') => addSetSetF addRec xs ys t' acc'

/-- `operator*(std::set<Surreal> const&, Surreal const&)` (lines 522-526):
multiply every element of the set by `num` in iteration order, threading
the pair of lookup tables (`AddLookup`, `MultLookup`) through the element
multiplications performed by `mulRec`. -/
def mulSetNumF
    (mulRec : Surreal → Surreal → LookupTable × LookupTable →
      Except Err (Surreal × (LookupTable × LookupTable))) :
    List Surreal → Surreal → LookupTable × LookupTable → List Surreal →
      Except Err (List Surreal × (LookupTable × LookupTable))
  | [], _, ts, acc => .ok (acc, ts)
  | x :: xs, num, ts, acc =>
      match mulRec x num ts with
      | .error e => .error e
      | .ok (r, ts') => mulSetNumF mulRec xs num ts' (sinsert r acc)

/-- The inner loop of `operator*(std::set const&, std::set const&)` (lines
533-541): multiply the fixed `num` on the left by every element of the
list. -/
def mulNumSetF
    (mulRec : Surreal → Surreal → LookupTable × LookupTable →
      Except Err (Surreal × (LookupTable × LookupTable))) :
    Surreal → List Surreal → LookupTable × LookupTable → List Surreal →
      Except Err (List Surreal × (LookupTable × LookupTable))
  | _, [], ts, acc => .ok (acc, ts)
  | x, y :: ys, ts, acc =>
      match mulRec x y ts with
      | .error e => .error e
      | .ok (r, ts') => mulNumSetF mulRec x ys ts' (sinsert r acc)

/-- `operator*(std::set<Surreal> const&, std::set<Surreal> const&)` (lines
533-541): the cross-product multiplication, first set in the outer loop,
second set in the inner loop. -/
def mulSetSetF
    (mulRec : Surreal → Surreal → LookupTable × LookupTable →
      Except Err (Surreal × (LookupTable × LookupTable))) :
    List Surreal → List Surreal → LookupTable × LookupTable → List Surreal →
      Except Err (List Surreal × (LookupTable × LookupTable))
  | [], _, ts, acc => .ok (acc, ts)
  | x :: xs, ys, ts, acc =>
      match mulNumSetF mulRec x ys ts acc with
      | .error e => .error e
      | .ok (acc', ts') => mulSetSetF mulRec xs ys ts' acc'

/-- The tail of `operator*` after the eight term-sets are computed (lines
409-475): the four left-associated set sums, the unions, the
`simplify = true` construction, the canonicalisation scan over
`MultLookup` and the `emplace`. Split from `multF` only to keep the
nesting tractable; `n` is the fuel handed to the element additions. -/
def multBuild (n : Nat) (a b : Surreal) (ts : LookupTable × LookupTable)
    (al_b ar_b bl_a br_a negal_bl negar_br negal_br negar_bl :
      List Surreal) :
    Except Err (Surreal × (LookupTable × LookupTable)) :=
  match addSetSetF (addF n) al_b bl_a ts.1 [] with
  | .error e => .error e
  | .ok (sL1a, ta1) =>
    match addSetSetF (addF n) sL1a negal_bl ta1 [] with
    | .error e => .error e
    | .ok (tempL1, ta2) =>
      match addSetSetF (addF n) ar_b br_a ta2 [] with
      | .error e => .error e
      | .ok (sL2a, ta3) =>
        match addSetSetF (addF n) sL2a negar_br ta3 [] with
        | .error e => .error e
        | .ok (tempL2, ta4) =>
          match addSetSetF (addF n) al_b br_a ta4 [] with
          | .error e => .error e
          | .ok (sR1a, ta5) =>
            match addSetSetF (addF n) sR1a negal_br ta5 [] with
            | .error e => .error e
            | .ok (tempR1, ta6) =>
              match addSetSetF (addF n) ar_b bl_a ta6 [] with
              | .error e => .error e
              | .ok (sR2a, ta7) =>
                match addSetSetF (addF n) sR2a negar_bl ta7 [] with
                | .error e => .error e
                | .ok (tempR2, ta8) =>
                  match ctor (tempL2.foldl (fun s x => sinsert x s) tempL1)
                             (tempR2.foldl (fun s x => sinsert x s) tempR1)
                             true with
                  | .error e => .error e
                  | .ok res =>
                      let p := canonScan res (termCount res) ts.2
                      .ok (p.1, (ta8, tinsert (minmax a b) p.1 p.2))

/-- Fuel-indexed embedding of `operator*(Surreal const&, Surreal const&)`
(`surreals.cpp` lines 380-476), threading the state pair
`(AddLookup, MultLookup)`: look the `minmax` key up in `MultLookup`; on a
miss compute, in statement order, `Al_b = a.left * b`, `Ar_b = a.right * b`,
`Bl_a = b.left * a`, `Br_a = b.right * a`, the four negated products
`negAl_Bl`, `negAr_Br`, `negAl_Br`, `negAr_Bl`, then the left-associated
set sums `tempL1 = Al_b + Bl_a + negAl_Bl`, `tempL2 = Ar_b + Br_a +
negAr_Br`, `tempR1 = Al_b + Br_a + negAl_Br`, `tempR2 = Ar_b + Bl_a +
negAr_Bl` (each element addition goes through `operator+`, threading
`AddLookup` only), union `tempL2` into `tempL1` and `tempR2` into
`tempR1`, construct `res` from the unions — a two-argument constructor
call, hence `simplify = true` — run the same canonicalisation scan as
addition over `MultLookup`, store the final value under the key and
return it. -/
def multF : Nat → Surreal → Surreal → LookupTable × LookupTable →
    Except Err (Surreal × (LookupTable × LookupTable))
  | 0, _, _, _ => .error .outOfFuel
  | n + 1, a, b, ts =>
      match tfind ts.2 (minmax a b) with
      | some e => .ok (e.2, ts)
      | none =>
          match mulSetNumF (multF n) a.left b ts [] with
          | .error e => .error e
          | .ok (al_b, ts1) =>
            match mulSetNumF (multF n) a.right b ts1 [] with
            | .error e => .error e
            | .ok (ar_b, ts2) =>
              match mulSetNumF (multF n) b.left a ts2 [] with
              | .error e => .error e
              | .ok (bl_a, ts3) =>
                match mulSetNumF (multF n) b.right a ts3 [] with
                | .error e => .error e
                | .ok (br_a, ts4) =>
                  match mulSetSetF (multF n) a.left b.left ts4 [] with
                  | .error e => .error e
                  | .ok (prodLL, ts5) =>
                    match negSetF (negF n) prodLL [] with
                    | .error e => .error e
                    | .ok negal_bl =>
                      match mulSetSetF (multF n) a.right b.right ts5 [] with
                      | .error e => .error e
                      | .ok (prodRR, ts6) =>
                        match negSetF (negF n) prodRR [] with
                        | .error e => .error e
                        | .ok negar_br =>
                          match mulSetSetF (multF n) a.left b.right ts6 [] with
                          | .error e => .error e
                          | .ok (prodLR, ts7) =>
                            match negSetF (negF n) prodLR [] with
                            | .error e => .error e
                            | .ok negal_br =>
                              match mulSetSetF (multF n) a.right b.left ts7 [] with
                              | .error e => .error e
                              | .ok (prodRL, ts8) =>
                                match negSetF (negF n) prodRL [] with
                                | .error e => .error e
                                | .ok negar_bl =>
                                  multBuild n a b ts8 al_b ar_b bl_a br_a
                                    negal_bl negar_br negal_br negar_bl

/-! ### Safety of the addition pipeline

The C++ `operator+` constructs its raw result through the guarded
constructor; the following development shows the guard can never fire when
the operands are hereditarily valid and the lookup table holds only valid
sums. -/

theorem head_sinsert {x w : Surreal} :
    ∀ {l : List Surreal}, (sinsert x l).head? = some w →
      w = x ∨ l.head? = some w := by
  intro l h
  cases l with
  | nil => left; symm; simpa [sinsert] using h
  | cons y ys =>
      rw [sinsert] at h
      split at h
      · left
        simp only [List.head?_cons, Option.some.injEq] at h
        exact h.symm
      · split at h
        · right; exact h
        · right; exact h

theorem chain_sinsert {x : Surreal} (hx : numeric x = true) :
    ∀ {l : List Surreal}, (∀ y ∈ l, numeric y = true) →
      List.Chain' (fun u v => lt u v = true) l →
      List.Chain' (fun u v => lt u v = true) (sinsert x l) := by
  intro l
  induction l with
  | nil => intro _ _; exact List.chain'_singleton x
  | cons y ys ih =>
      intro hn hc
      rw [sinsert]
      split
      · rename_i h1
        exact List.chain'_cons.mpr ⟨h1, hc⟩
      · split
        · rename_i h1 h2
          refine List.chain'_cons'.mpr
            ⟨?_, ih (fun u hu => hn u (List.mem_cons_of_mem _ hu)) hc.tail⟩
          intro w hw
          rcases head_sinsert (Option.mem_def.mp hw) with rfl | hw2
          · exact h2
          · exact (List.chain'_cons'.mp hc).1 w (Option.mem_def.mpr hw2)
        · exact hc

theorem mem_of_mem_foldl_sinsert {z : Surreal} :
    ∀ (l2 l1 : List Surreal),
      z ∈ l2.foldl (fun s x => sinsert x s) l1 → z ∈ l1 ∨ z ∈ l2 := by
  intro l2
  induction l2 with
  | nil => intro l1 h; exact Or.inl h
  | cons x xs ih =>
      intro l1 h
      simp only [List.foldl_cons] at h
      rcases ih (sinsert x l1) h with h1 | h1
      · rcases mem_of_mem_sinsert h1 with rfl | h2
        · exact Or.inr (List.mem_cons_self _ _)
        · exact Or.inl h2
      · exact Or.inr (List.mem_cons_of_mem _ h1)

theorem mem_foldl_sinsert_left {z : Surreal} :
    ∀ (l2 l1 : List Surreal), z ∈ l1 →
      z ∈ l2.foldl (fun s x => sinsert x s) l1 := by
  intro l2
  induction l2 with
  | nil => intro l1 h; exact h
  | cons x xs ih =>
      intro l1 h
      simp only [List.foldl_cons]
      exact ih _ (mem_sinsert_of_mem h)

theorem exists_eqS_foldl_sinsert {x : Surreal} :
    ∀ {l2 : List Surreal} (l1 : List Surreal), x ∈ l2 →
      ∃ z ∈ l2.foldl (fun s u => sinsert u s) l1, eqS z x = true := by
  intro l2
  induction l2 with
  | nil => intro l1 h; cases h
  | cons y ys ih =>
      intro l1 h
      simp only [List.foldl_cons]
      rcases List.mem_cons.mp h with rfl | h2
      · rcases exists_eqS_mem_sinsert x l1 with ⟨w, hw, he⟩
        exact ⟨w, mem_foldl_sinsert_left ys _ hw, he⟩
      · exact ih _ h2

theorem chain_foldl_sinsert :
    ∀ (l2 l1 : List Surreal), (∀ y ∈ l1, numeric y = true) →
      (∀ y ∈ l2, numeric y = true) →
      List.Chain' (fun u v => lt u v = true) l1 →
      List.Chain' (fun u v => lt u v = true)
        (l2.foldl (fun s x => sinsert x s) l1) := by
  intro l2
  induction l2 with
  | nil => intro l1 _ _ hc; exact hc
  | cons x xs ih =>
      intro l1 hn1 hn2 hc
      simp only [List.foldl_cons]
      refine ih _ ?_ (fun y hy => hn2 y (List.mem_cons_of_mem _ hy)) ?_
      · intro y hy
        rcases mem_of_mem_sinsert hy with rfl | h2
        · exact hn2 y (List.mem_cons_self _ _)
        · exact hn1 y h2
      · exact chain_sinsert (hn2 x (List.mem_cons_self _ _)) hn1 hc

/-- The reachability invariant of `AddLookup`: the program only ever
stores, under a key pair, a hereditarily valid number Comparator-equal to
the reference sum of the key pair. -/
def ValidAddTable (t : LookupTable) : Prop :=
  ∀ e ∈ t, numeric e.2 = true ∧ eqS e.2 (padd e.1.1 e.1.2) = true

theorem canonScan_cons_ne {res v : Surreal} {s : Nat}
    {k : Surreal × Surreal} {rest : LookupTable}
    (h : eqS res v = false) :
    canonScan res s ((k, v) :: rest) =
      ((canonScan res s rest).1, (k, v) :: (canonScan res s rest).2) := by
  rw [canonScan, if_neg (by rw [h]; exact Bool.false_ne_true)]

theorem canonScan_cons_stop {res v : Surreal} {s : Nat}
    {k : Surreal × Surreal} {rest : LookupTable}
    (h : eqS res v = true) (hs : ¬ s < termCount v) :
    canonScan res s ((k, v) :: rest) = (v, (k, v) :: rest) := by
  rw [canonScan, if_pos h]
  by_cases hgt : s > termCount v
  · rw [if_pos hgt]
  · rw [if_neg hgt, if_neg hs]

theorem canonScan_cons_overwrite {res v : Surreal} {s : Nat}
    {k : Surreal × Surreal} {rest : LookupTable}
    (h : eqS res v = true) (hs : s < termCount v) :
    canonScan res s ((k, v) :: rest) =
      ((canonScan res s rest).1, (k, res) :: (canonScan res s rest).2) := by
  rw [canonScan, if_pos h, if_neg (by omega), if_pos hs]

/-- The canonicalisation scan returns a valid number of the same
equivalence class as the raw result and keeps the table valid. -/
theorem canonScan_ok {res X : Surreal} (hres : numeric res = true)
    (hX : eqS res X = true) :
    ∀ {s : Nat} {t : LookupTable}, ValidAddTable t →
      numeric (canonScan res s t).1 = true ∧
      eqS (canonScan res s t).1 X = true ∧
      ValidAddTable (canonScan res s t).2 := by
  intro s t
  induction t with
  | nil =>
      intro _
      exact ⟨hres, hX, fun e he => absurd he (List.not_mem_nil e)⟩
  | cons e rest ih =>
      intro ht
      obtain ⟨k, v⟩ := e
      have hkv := ht (k, v) (List.mem_cons_self _ _)
      have hrest : ValidAddTable rest :=
        fun e2 he2 => ht e2 (List.mem_cons_of_mem _ he2)
      have ihr := ih hrest
      cases heq : eqS res v with
      | false =>
          rw [canonScan_cons_ne heq]
          refine ⟨ihr.1, ihr.2.1, ?_⟩
          intro e2 he2
          rcases List.mem_cons.mp he2 with rfl | he3
          · exact hkv
          · exact ihr.2.2 e2 he3
      | true =>
          by_cases hs : s < termCount v
          · rw [canonScan_cons_overwrite heq hs]
            refine ⟨ihr.1, ihr.2.1, ?_⟩
            intro e2 he2
            rcases List.mem_cons.mp he2 with rfl | he3
            · exact ⟨hres, eqS_trans heq hkv.2⟩
            · exact ihr.2.2 e2 he3
          · rw [canonScan_cons_stop heq hs]
            exact ⟨hkv.1, eqS_trans (eqS_symm heq) hX, ht⟩

/-- `emplace` of a valid entry keeps the table valid. -/
theorem ValidAddTable_tinsert {k : Surreal × Surreal} {v : Surreal}
    (hv : numeric v = true) (hkv : eqS v (padd k.1 k.2) = true) :
    ∀ {t : LookupTable}, ValidAddTable t → ValidAddTable (tinsert k v t) := by
  intro t
  induction t with
  | nil =>
      intro _ e he
      rw [tinsert] at he
      rcases List.mem_singleton.mp he with rfl
      exact ⟨hv, hkv⟩
  | cons e2 es ih =>
      intro ht
      have he2 := ht e2 (List.mem_cons_self _ _)
      have hes : ValidAddTable es :=
        fun e3 he3 => ht e3 (List.mem_cons_of_mem _ he3)
      rw [tinsert]
      split
      · intro e he
        rcases List.mem_cons.mp he with rfl | hr
        · exact ⟨hv, hkv⟩
        · exact ht e hr
      · split
        · intro e he
          rcases List.mem_cons.mp he with rfl | hr
          · exact he2
          · exact ih hes e hr
        · exact ht

theorem tfind_some {t : LookupTable} {k : Surreal × Surreal}
    {e : (Surreal × Surreal) × Surreal} (h : tfind t k = some e) :
    e ∈ t ∧ keyEq e.1 k = true := by
  unfold tfind at h
  refine ⟨List.mem_of_find?_eq_some h, ?_⟩
  have h2 := List.find?_some h
  exact h2

/-- The reference sum of the `minmax`-normalised pair is Comparator-equal
to the sum of the original pair. -/
theorem padd_minmax (a b : Surreal) :
    eqS (padd (minmax a b).1 (minmax a b).2) (padd a b) = true := by
  unfold minmax
  cases h : lt b a with
  | true =>
      rw [if_pos rfl]
      exact padd_comm b a
  | false =>
      rw [if_neg Bool.false_ne_true]
      exact eqS_refl _

/-- The simplified construction from guarded sets of valid numbers is
itself hereditarily valid. -/
theorem simplified_numeric {L R : List Surreal}
    (hnL : ∀ x ∈ L, numeric x = true) (hnR : ∀ x ∈ R, numeric x = true)
    (hg : ∀ r ∈ R, ∀ l ∈ L, ¬ le r l = true) :
    numeric (mk (match L.getLast? with | some m => [m] | none => [])
                (match R.head? with | some m => [m] | none => [])) = true := by
  refine numeric_iff.mpr ⟨?_, ?_, ?_⟩
  · intro r hr l hl
    simp only [right_mk] at hr
    simp only [left_mk] at hl
    cases hR : R.head? with
    | none => rw [hR] at hr; cases hr
    | some mr =>
        rw [hR] at hr
        cases hL : L.getLast? with
        | none => rw [hL] at hl; cases hl
        | some ml =>
            rw [hL] at hl
            have hr2 := List.mem_singleton.mp hr
            have hl2 := List.mem_singleton.mp hl
            subst hr2
            subst hl2
            exact hg r (mem_of_head? hR) l (List.mem_of_mem_getLast? hL)
  · intro l hl
    simp only [left_mk] at hl
    cases hL : L.getLast? with
    | none => rw [hL] at hl; cases hl
    | some ml =>
        rw [hL] at hl
        have hl2 := List.mem_singleton.mp hl
        subst hl2
        exact hnL l (List.mem_of_mem_getLast? hL)
  · intro r hr
    simp only [right_mk] at hr
    cases hR : R.head? with
    | none => rw [hR] at hr; cases hr
    | some mr =>
        rw [hR] at hr
        have hr2 := List.mem_singleton.mp hr
        subst hr2
        exact hnR r (mem_of_head? hR)

/-- Correctness of the set-plus-number loop, assuming the element adder is
correct on smaller inputs: the loop succeeds, keeps the table valid, and
its output is an ascending set of valid numbers whose members are, up to
Comparator equality, exactly the accumulated elements together with the
sums of the list elements with `num`. -/
theorem addSetNumF_ok {m : Nat} {num : Surreal}
    (hrec : ∀ (x : Surreal) (t : LookupTable), numeric x = true →
      ValidAddTable t → size x + size num ≤ m →
      ∃ v t2, addF m x num t = .ok (v, t2) ∧ numeric v = true ∧
        eqS v (padd x num) = true ∧ ValidAddTable t2) :
    ∀ (xs : List Surreal) (t : LookupTable) (acc : List Surreal),
      (∀ x ∈ xs, numeric x = true) →
      (∀ x ∈ xs, size x + size num ≤ m) →
      ValidAddTable t →
      (∀ z ∈ acc, numeric z = true) →
      List.Chain' (fun u v => lt u v = true) acc →
      ∃ out t2, addSetNumF (addF m) xs num t acc = .ok (out, t2) ∧
        ValidAddTable t2 ∧
        (∀ z ∈ out, numeric z = true) ∧
        List.Chain' (fun u v => lt u v = true) out ∧
        (∀ z ∈ out, z ∈ acc ∨ ∃ x ∈ xs, eqS z (padd x num) = true) ∧
        (∀ z ∈ acc, z ∈ out) ∧
        (∀ x ∈ xs, ∃ z ∈ out, eqS z (padd x num) = true) := by
  intro xs
  induction xs with
  | nil =>
      intro t acc _ _ ht hacc hch
      refine ⟨acc, t, rfl, ht, hacc, hch, ?_, fun z hz => hz, ?_⟩
      · intro z hz; exact Or.inl hz
      · intro x hx; cases hx
  | cons x xs ih =>
      intro t acc hxs hsz ht hacc hch
      rcases hrec x t (hxs x (List.mem_cons_self _ _)) ht
        (hsz x (List.mem_cons_self _ _)) with ⟨r, t1, haddeq, hnr, her, ht1⟩
      have hacc2 : ∀ z ∈ sinsert r acc, numeric z = true := by
        intro z hz
        rcases mem_of_mem_sinsert hz with rfl | h2
        · exact hnr
        · exact hacc z h2
      have hch2 := chain_sinsert hnr hacc hch
      rcases ih t1 (sinsert r acc)
        (fun u hu => hxs u (List.mem_cons_of_mem _ hu))
        (fun u hu => hsz u (List.mem_cons_of_mem _ hu))
        ht1 hacc2 hch2 with
        ⟨out, t2, hout, ht2, hnout, hchout, hclass, hmono, hcompl⟩
      refine ⟨out, t2, ?_, ht2, hnout, hchout, ?_, ?_, ?_⟩
      · simp only [addSetNumF, haddeq]
        exact hout
      · intro z hz
        rcases hclass z hz with hz2 | ⟨u, hu, he⟩
        · rcases mem_of_mem_sinsert hz2 with rfl | h3
          · exact Or.inr ⟨x, List.mem_cons_self _ _, her⟩
          · exact Or.inl h3
        · exact Or.inr ⟨u, List.mem_cons_of_mem _ hu, he⟩
      · intro z hz
        exact hmono z (mem_sinsert_of_mem hz)
      · intro u hu
        rcases List.mem_cons.mp hu with rfl | h2
        · rcases exists_eqS_mem_sinsert r acc with ⟨w, hw, hwr⟩
          exact ⟨w, hmono w hw, eqS_trans hwr her⟩
        · exact hcompl u h2

/-- Total correctness of the memoized addition on hereditarily valid
operands and a valid table: with fuel dominating the combined sizes it
returns, without any error, a hereditarily valid number Comparator-equal
to the reference sum, and leaves the table valid. -/
theorem addF_ok : ∀ (n : Nat) (a b : Surreal) (t : LookupTable),
    numeric a = true → numeric b = true → ValidAddTable t →
    size a + size b ≤ n →
    ∃ v t2, addF n a b t = .ok (v, t2) ∧ numeric v = true ∧
      eqS v (padd a b) = true ∧ ValidAddTable t2 := by
  intro n
  induction n using Nat.strong_induction_on with
  | _ n ih =>
    intro a b t ha hb ht hn
    have hpa := size_pos a
    have hpb := size_pos b
    obtain ⟨n', rfl⟩ : ∃ k, n = k + 1 := ⟨n - 1, by omega⟩
    cases hfind : tfind t (minmax a b) with
    | some e =>
        have hmem := (tfind_some hfind).1
        have hke := (tfind_some hfind).2
        have hval := ht e hmem
        unfold keyEq at hke
        rw [Bool.and_eq_true] at hke
        rcases hke with ⟨hk1, hk2⟩
        refine ⟨e.2, t, ?_, hval.1, ?_, ht⟩
        · simp only [addF, hfind]
        · exact eqS_trans (eqS_trans hval.2 (padd_congr hk1 hk2))
            (padd_minmax a b)
    | none =>
        have hrecb : ∀ (x : Surreal) (t0 : LookupTable), numeric x = true →
            ValidAddTable t0 → size x + size b ≤ n' →
            ∃ v t2, addF n' x b t0 = .ok (v, t2) ∧ numeric v = true ∧
              eqS v (padd x b) = true ∧ ValidAddTable t2 :=
          fun x t0 hx ht0 hs => ih n' (Nat.lt_succ_self n') x b t0 hx hb ht0 hs
        have hreca : ∀ (x : Surreal) (t0 : LookupTable), numeric x = true →
            ValidAddTable t0 → size x + size a ≤ n' →
            ∃ v t2, addF n' x a t0 = .ok (v, t2) ∧ numeric v = true ∧
              eqS v (padd x a) = true ∧ ValidAddTable t2 :=
          fun x t0 hx ht0 hs => ih n' (Nat.lt_succ_self n') x a t0 hx ha ht0 hs
        have hanil : ∀ z ∈ ([] : List Surreal), numeric z = true :=
          fun z hz => absurd hz (List.not_mem_nil z)
        rcases addSetNumF_ok hrecb a.left t [] (fun x hx => numeric_of_mem_left ha hx)
            (fun x hx => by have := size_lt_of_mem_left hx; omega)
            ht hanil List.chain'_nil with
          ⟨tempL1, t1, e1, ht1, hn1, hc1, hcl1, _, hco1⟩
        rcases addSetNumF_ok hrecb a.right t1 [] (fun x hx => numeric_of_mem_right ha hx)
            (fun x hx => by have := size_lt_of_mem_right hx; omega)
            ht1 hanil List.chain'_nil with
          ⟨tempR1, t2, e2, ht2, hn2, hc2, hcl2, _, hco2⟩
        rcases addSetNumF_ok hreca b.left t2 [] (fun x hx => numeric_of_mem_left hb hx)
            (fun x hx => by have := size_lt_of_mem_left hx; omega)
            ht2 hanil List.chain'_nil with
          ⟨tempL2, t3, e3, ht3, hn3, hc3, hcl3, _, hco3⟩
        rcases addSetNumF_ok hreca b.right t3 [] (fun x hx => numeric_of_mem_right hb hx)
            (fun x hx => by have := size_lt_of_mem_right hx; omega)
            ht3 hanil List.chain'_nil with
          ⟨tempR2, t4, e4, ht4, hn4, hc4, hcl4, _, hco4⟩
        have hcl1a : ∀ z ∈ tempL1, ∃ x ∈ a.left, eqS z (padd x b) = true := by
          intro z hz
          rcases hcl1 z hz with h | h
          · cases h
          · exact h
        have hcl2a : ∀ z ∈ tempR1, ∃ x ∈ a.right, eqS z (padd x b) = true := by
          intro z hz
          rcases hcl2 z hz with h | h
          · cases h
          · exact h
        have hcl3a : ∀ z ∈ tempL2, ∃ x ∈ b.left, eqS z (padd x a) = true := by
          intro z hz
          rcases hcl3 z hz with h | h
          · cases h
          · exact h
        have hcl4a : ∀ z ∈ tempR2, ∃ x ∈ b.right, eqS z (padd x a) = true := by
          intro z hz
          rcases hcl4 z hz with h | h
          · cases h
          · exact h
        have hnL : ∀ z ∈ tempL2.foldl (fun s x => sinsert x s) tempL1,
            numeric z = true := by
          intro z hz
          rcases mem_of_mem_foldl_sinsert tempL2 tempL1 hz with h | h
          · exact hn1 z h
          · exact hn3 z h
        have hnR : ∀ z ∈ tempR2.foldl (fun s x => sinsert x s) tempR1,
            numeric z = true := by
          intro z hz
          rcases mem_of_mem_foldl_sinsert tempR2 tempR1 hz with h | h
          · exact hn2 z h
          · exact hn4 z h
        have hcL := chain_foldl_sinsert tempL2 tempL1 hn1 hn3 hc1
        have hcR := chain_foldl_sinsert tempR2 tempR1 hn2 hn4 hc2
        have hclL : ∀ z ∈ tempL2.foldl (fun s x => sinsert x s) tempL1,
            (∃ x ∈ a.left, eqS z (padd x b) = true) ∨
            (∃ x ∈ b.left, eqS z (padd x a) = true) := by
          intro z hz
          rcases mem_of_mem_foldl_sinsert tempL2 tempL1 hz with h | h
          · exact Or.inl (hcl1a z h)
          · exact Or.inr (hcl3a z h)
        have hclR : ∀ z ∈ tempR2.foldl (fun s x => sinsert x s) tempR1,
            (∃ x ∈ a.right, eqS z (padd x b) = true) ∨
            (∃ x ∈ b.right, eqS z (padd x a) = true) := by
          intro z hz
          rcases mem_of_mem_foldl_sinsert tempR2 tempR1 hz with h | h
          · exact Or.inl (hcl2a z h)
          · exact Or.inr (hcl4a z h)
        have hguard : ∀ r ∈ tempR2.foldl (fun s x => sinsert x s) tempR1,
            ∀ l ∈ tempL2.foldl (fun s x => sinsert x s) tempL1,
            ¬ le r l = true := by
          intro r hr l hl hle
          rcases hclR r hr with ⟨u, hu, heru⟩ | ⟨u, hu, heru⟩ <;>
            rcases hclL l hl with ⟨w, hw, helw⟩ | ⟨w, hw, helw⟩
          · exact guard_pair_arar ha hu hw ((le_congr heru helw).mp hle)
          · exact guard_pair_arbl hb hu hw ((le_congr heru helw).mp hle)
          · exact guard_pair_bral ha hu hw ((le_congr heru helw).mp hle)
          · exact guard_pair_brbl hb hu hw ((le_congr heru helw).mp hle)
        have hcfalse : ¬ (((tempR2.foldl (fun s x => sinsert x s) tempR1).any
            fun rightElem => (tempL2.foldl (fun s x => sinsert x s) tempL1).any
              fun leftElem => le rightElem leftElem) = true) := by
          intro hc
          rcases List.any_eq_true.mp hc with ⟨r, hr, hr2⟩
          rcases List.any_eq_true.mp hr2 with ⟨l, hl, hle⟩
          exact hguard r hr l hl hle
        have heqLR : eqS (mk (tempL2.foldl (fun s x => sinsert x s) tempL1)
            (tempR2.foldl (fun s x => sinsert x s) tempR1)) (padd a b) = true := by
          refine eqS_of_options ?_ ?_ ?_ ?_
          · intro l hl
            simp only [left_mk] at hl
            rcases hclL l hl with ⟨w, hw, he⟩ | ⟨w, hw, he⟩
            · exact ⟨padd w b, mem_padd_left.mpr (Or.inl ⟨w, hw, rfl⟩), he⟩
            · exact ⟨padd w a, mem_padd_left.mpr (Or.inr ⟨w, hw, rfl⟩), he⟩
          · intro r hr
            rcases mem_padd_right.mp hr with ⟨u, hu, rfl⟩ | ⟨u, hu, rfl⟩
            · rcases hco2 u hu with ⟨z, hz, hze⟩
              refine ⟨z, ?_, eqS_symm hze⟩
              simp only [right_mk]
              exact mem_foldl_sinsert_left tempR2 tempR1 hz
            · rcases hco4 u hu with ⟨z, hz, hze⟩
              rcases exists_eqS_foldl_sinsert tempR1 hz with ⟨w, hw, hwz⟩
              refine ⟨w, ?_, eqS_symm (eqS_trans hwz hze)⟩
              simp only [right_mk]
              exact hw
          · intro l hl
            rcases mem_padd_left.mp hl with ⟨u, hu, rfl⟩ | ⟨u, hu, rfl⟩
            · rcases hco1 u hu with ⟨z, hz, hze⟩
              refine ⟨z, ?_, eqS_symm hze⟩
              simp only [left_mk]
              exact mem_foldl_sinsert_left tempL2 tempL1 hz
            · rcases hco3 u hu with ⟨z, hz, hze⟩
              rcases exists_eqS_foldl_sinsert tempL1 hz with ⟨w, hw, hwz⟩
              refine ⟨w, ?_, eqS_symm (eqS_trans hwz hze)⟩
              simp only [left_mk]
              exact hw
          · intro r hr
            simp only [right_mk] at hr
            rcases hclR r hr with ⟨w, hw, he⟩ | ⟨w, hw, he⟩
            · exact ⟨padd w b, mem_padd_right.mpr (Or.inl ⟨w, hw, rfl⟩), he⟩
            · exact ⟨padd w a, mem_padd_right.mpr (Or.inr ⟨w, hw, rfl⟩), he⟩
        obtain ⟨res, hctor, hnres, heqres⟩ :
            ∃ res, ctor (tempL2.foldl (fun s x => sinsert x s) tempL1)
                (tempR2.foldl (fun s x => sinsert x s) tempR1) true =
              .ok res ∧ numeric res = true ∧ eqS res (padd a b) = true := by
          refine ⟨mk (match (tempL2.foldl (fun s x => sinsert x s) tempL1).getLast?
                        with | some mm => [mm] | none => [])
                     (match (tempR2.foldl (fun s x => sinsert x s) tempR1).head?
                        with | some mm => [mm] | none => []), ?_, ?_, ?_⟩
          · rw [ctor, if_neg hcfalse, if_pos rfl]
          · exact simplified_numeric hnL hnR hguard
          · exact eqS_trans (simplified_eqS hnL hnR hcL hcR) heqLR
        obtain ⟨v, t5, hpeq⟩ :
            ∃ v t5, canonScan res (termCount res) t4 = (v, t5) := ⟨_, _, rfl⟩
        have hscan := canonScan_ok hnres heqres ht4
          (s := termCount res) (t := t4)
        rw [hpeq] at hscan
        refine ⟨v, tinsert (minmax a b) v t5, ?_, hscan.1, hscan.2.1, ?_⟩
        · simp only [addF, hfind, e1, e2, e3, e4, hctor, hpeq]
        · exact ValidAddTable_tinsert hscan.1
            (eqS_trans hscan.2.1 (eqS_symm (padd_minmax a b))) hscan.2.2

end Surreal

open Surreal

/-- **C1**: constructing a number from two sets fails with
`InvalidConstruction` exactly when some element of the right set is `<=`
some element of the left set, and otherwise returns the constructed number
normally; the two-argument constructor from a left number and a right number
fails with the same error exactly when the left argument is not strictly `<`
the right argument, and otherwise returns `{left | right}` normally. -/
theorem C1_construction_errors :
    (∀ (l r : List Surreal) (simplify : Bool),
      (ctor l r simplify = .error .invalidConstruction ↔
        ∃ re ∈ r, ∃ lel ∈ l, le re lel = true) ∧
      ((¬ ∃ re ∈ r, ∃ lel ∈ l, le re lel = true) →
        ∃ v, ctor l r simplify = .ok v)) ∧
    (∀ a b : Surreal,
      (ctor2 a b = .error .invalidConstruction ↔ ¬ lt a b = true) ∧
      (lt a b = true → ctor2 a b = .ok (mk [a] [b]))) := by
  refine ⟨fun l r simplify => ⟨?_, ?_⟩, fun a b => ⟨?_, ?_⟩⟩
  · rw [ctor]
    split
    · rename_i hc
      simp only [List.any_eq_true] at hc
      exact ⟨fun _ => hc, fun _ => rfl⟩
    · rename_i hc
      simp only [List.any_eq_true] at hc
      constructor
      · intro h
        split at h <;> cases h
      · intro h
        exact absurd h hc
  · intro h
    rw [ctor]
    split
    · rename_i hc
      simp only [List.any_eq_true] at hc
      exact absurd hc h
    · split
      · exact ⟨_, rfl⟩
      · exact ⟨_, rfl⟩
  · rw [ctor2]
    split
    · rename_i hc
      exact ⟨fun h => Except.noConfusion h, fun h => absurd hc h⟩
    · rename_i hc
      exact ⟨fun _ => hc, fun _ => rfl⟩
  · intro h
    rw [ctor2]
    split
    · rfl
    · rename_i hc
      exact absurd h hc

/-- Witness for C1 at concrete inputs: `left = {1}, right = {0}` is rejected
(`0 <= 1`), and the pair constructor accepts `0 < 1`. -/
theorem C1_construction_errors_witness :
    ctor [one] [zero] true = .error .invalidConstruction ∧
    ctor2 zero one = .ok (mk [zero] [one]) :=
  ⟨(C1_construction_errors.1 [one] [zero] true).1.mpr
      ⟨zero, by simp, one, by simp, by decide⟩,
   (C1_construction_errors.2 zero one).2 (by decide)⟩

/-! ### `SurrealInf`: lazily generated ("infinite") surreals

`SurrealInf` holds two `std::function<SurrealInf(int)>` generating functions
(`none` models a default-constructed, never-set `std::function`, whose
invocation raises `std::bad_function_call`) and two `int` sizes (negative =
unbounded).  The per-instance mutable caches (`std::map<int, SurrealInf>`)
are modelled as explicit state threaded through the accessors. -/

inductive SurrealInf : Type where
  | mk (left right : Option (Int → SurrealInf)) (leftSize rightSize : Int) :
      SurrealInf

namespace SurrealInf

/-- The `left` generating function member. -/
def leftFn : SurrealInf → Option (Int → SurrealInf)
  | .mk l _ _ _ => l

/-- The `right` generating function member. -/
def rightFn : SurrealInf → Option (Int → SurrealInf)
  | .mk _ r _ _ => r

/-- The `leftSize` member. -/
def leftSize : SurrealInf → Int
  | .mk _ _ ls _ => ls

/-- The `rightSize` member. -/
def rightSize : SurrealInf → Int
  | .mk _ _ _ rs => rs

@[simp] theorem leftFn_mk (l r : Option (Int → SurrealInf)) (ls rs : Int) :
    (mk l r ls rs).leftFn = l := rfl
@[simp] theorem rightFn_mk (l r : Option (Int → SurrealInf)) (ls rs : Int) :
    (mk l r ls rs).rightFn = r := rfl
@[simp] theorem leftSize_mk (l r : Option (Int → SurrealInf)) (ls rs : Int) :
    (mk l r ls rs).leftSize = ls := rfl
@[simp] theorem rightSize_mk (l r : Option (Int → SurrealInf)) (ls rs : Int) :
    (mk l r ls rs).rightSize = rs := rfl

/-- A per-instance cache (`std::map<int, SurrealInf>`), as an association
list.  Only `find` by exact key and keyed insertion are ever performed on
it, so the entry order is irrelevant to the modelled behaviour. -/
abbrev InfCache := List (Int × SurrealInf)

/-- The common body of `SurrealInf::getLeft` / `SurrealInf::getRight`
(`surreals.cpp` lines 741-755 and 762-776, which are textually identical up
to the side): check the cache for `n`; on a hit return the cached value; on
a miss invoke the generating function with `n` (raising
`std::bad_function_call` if it was never set), store the result under `n`,
and return it.  No comparison of `n` with the size field is performed. -/
def cacheGet (f : Option (Int → SurrealInf)) (cache : InfCache) (n : Int) :
    Except Surreal.Err (SurrealInf × InfCache) :=
  match cache.find? (fun e => e.1 == n) with
  | some e => .ok (e.2, cache)
  | none =>
      match f with
      | none => .error .badFunctionCall
      | some g => .ok (g n, (n, g n) :: cache)

/-- `SurrealInf::getLeft(int const&)` with its cache made explicit. -/
def getLeft (x : SurrealInf) (cache : InfCache) (n : Int) :
    Except Surreal.Err (SurrealInf × InfCache) :=
  cacheGet x.leftFn cache n

/-- `SurrealInf::getRight(int const&)` with its cache made explicit. -/
def getRight (x : SurrealInf) (cache : InfCache) (n : Int) :
    Except Surreal.Err (SurrealInf × InfCache) :=
  cacheGet x.rightFn cache n

/-- Whether a `getLeft`/`getRight` call with index `n` against cache `c`
would miss (and hence invoke the generating function). -/
def isMiss (c : InfCache) (n : Int) : Bool :=
  (c.find? (fun e => e.1 == n)).isNone

/-- The cache after one `getLeft`-style access with generating function `g`. -/
def afterGet (g : Int → SurrealInf) (c : InfCache) (n : Int) : InfCache :=
  match cacheGet (some g) c n with
  | .ok (_, c') => c'
  | .error _ => c

/-- Number of generator invocations at index `m` over a sequence of
`getLeft`-style accesses starting from cache `c` (an access invokes the
generator exactly when it misses the cache). -/
def invocations (g : Int → SurrealInf) : List Int → InfCache → Int → Nat
  | [], _, _ => 0
  | n :: rest, c, m =>
      (if n = m ∧ isMiss c n = true then 1 else 0) +
        invocations g rest (afterGet g c n) m

theorem cacheGet_hit {f : Option (Int → SurrealInf)} {c : InfCache} {n : Int}
    {e : Int × SurrealInf} (h : c.find? (fun e => e.1 == n) = some e) :
    cacheGet f c n = .ok (e.2, c) := by
  unfold cacheGet
  rw [h]

theorem cacheGet_miss {g : Int → SurrealInf} {c : InfCache} {n : Int}
    (h : c.find? (fun e => e.1 == n) = none) :
    cacheGet (some g) c n = .ok (g n, (n, g n) :: c) := by
  unfold cacheGet
  rw [h]

theorem cacheGet_unset {c : InfCache} {n : Int}
    (h : c.find? (fun e => e.1 == n) = none) :
    cacheGet none c n = .error .badFunctionCall := by
  unfold cacheGet
  rw [h]

theorem isMiss_afterGet_self (g : Int → SurrealInf) (c : InfCache) (n : Int) :
    isMiss (afterGet g c n) n = false := by
  unfold afterGet
  cases h : c.find? (fun e => e.1 == n) with
  | some e =>
      rw [cacheGet_hit h]
      simp [isMiss, h]
  | none =>
      rw [cacheGet_miss h]
      simp only [isMiss]
      have hfind : List.find? (fun e : Int × SurrealInf => e.1 == n)
          ((n, g n) :: c) = some (n, g n) :=
        List.find?_cons_of_pos _ (by simp)
      rw [hfind]
      rfl

theorem isMiss_afterGet_of_hit {c : InfCache} {m : Int}
    (h : isMiss c m = false) (g : Int → SurrealInf) (n : Int) :
    isMiss (afterGet g c n) m = false := by
  unfold afterGet
  cases hf : c.find? (fun e => e.1 == n) with
  | some e =>
      rw [cacheGet_hit hf]
      exact h
  | none =>
      rw [cacheGet_miss hf]
      simp only [isMiss] at h ⊢
      by_cases hnm : ((n, g n).1 == m) = true
      · have hfind : List.find? (fun e : Int × SurrealInf => e.1 == m)
            ((n, g n) :: c) = some (n, g n) :=
          List.find?_cons_of_pos _ hnm
        rw [hfind]
        rfl
      · have hfind : List.find? (fun e : Int × SurrealInf => e.1 == m)
            ((n, g n) :: c) = List.find? (fun e => e.1 == m) c :=
          List.find?_cons_of_neg _ hnm
        rw [hfind]
        exact h

/-- Over any access sequence, the generator is invoked at most once per
index (zero times if the index is already cached). -/
theorem invocations_le_one (g : Int → SurrealInf) :
    ∀ (calls : List Int) (c : InfCache) (m : Int),
      invocations g calls c m ≤ (if isMiss c m = true then 1 else 0) := by
  intro calls
  induction calls with
  | nil =>
      intro c m
      simp [invocations]
  | cons n rest ih =>
      intro c m
      rw [invocations]
      have h2 := ih (afterGet g c n) m
      by_cases hm : isMiss c m = true
      · rw [if_pos hm]
        by_cases hn : n = m ∧ isMiss c n = true
        · rw [if_pos hn]
          rcases hn with ⟨rfl, hmiss⟩
          rw [isMiss_afterGet_self g c n] at h2
          simp only [Bool.false_eq_true, if_false] at h2
          omega
        · rw [if_neg hn]
          have h3 : invocations g rest (afterGet g c n) m ≤ 1 :=
            Nat.le_trans h2 (by split <;> omega)
          omega
      · have hmf : isMiss c m = false := by
          cases hx : isMiss c m with
          | true => exact absurd hx hm
          | false => rfl
        rw [isMiss_afterGet_of_hit hmf g n] at h2
        simp only [Bool.false_eq_true, if_false] at h2
        have hn : ¬ (n = m ∧ isMiss c n = true) := by
          rintro ⟨rfl, hx⟩
          rw [hmf] at hx
          cases hx
        rw [if_neg hn, if_neg (by rw [hmf]; exact Bool.false_ne_true)]
        omega

/-- A trivial `SurrealInf` (both sides empty), used as a concrete test
value. -/
def inf0 : SurrealInf := .mk none none 0 0

/-- A constant generating function, used as a concrete test value. -/
def constGen : Int → SurrealInf := fun _ => inf0

/-- A concrete instance with both generating functions set. -/
def infSample : SurrealInf := .mk (some constGen) (some constGen) 1 1

end SurrealInf

/-- `Surreal::Surreal(SurrealInf&)` (`surreals.cpp` lines 161-199),
fuel-indexed: fails with `UnboundedSet` when either size field is negative;
otherwise fetches the last left / first right generated element (the C++
reads them through `getLeft(leftSize-1)` / `getRight(rightSize-1)`, whose
caches are transparent for the pure generating functions of the model),
recursively projects them, and builds `Surreal(tempLset, tempRset, true)`
(line 196).  A child's error is rethrown (lines 179-182, 190-193). -/
def ofInfFuel : Nat → SurrealInf → Except Err Surreal
  | 0, _ => .error .outOfFuel
  | n + 1, x =>
      if x.leftSize < 0 ∨ x.rightSize < 0 then .error .unboundedSet
      else
        match (if 0 < x.leftSize then
                 match x.leftFn with
                 | none => Except.error Err.badFunctionCall
                 | some g => (ofInfFuel n (g (x.leftSize - 1))).map fun s => [s]
               else Except.ok []) with
        | .error e => .error e
        | .ok tempL =>
            match (if 0 < x.rightSize then
                     match x.rightFn with
                     | none => Except.error Err.badFunctionCall
                     | some g =>
                         (ofInfFuel n (g (x.rightSize - 1))).map fun s => [s]
                   else Except.ok []) with
            | .error e => .error e
            | .ok tempR => ctor tempL tempR true

/-- `SurrealInf::Float()` (`surreals.cpp` lines 780-787): convert to a
finite `Surreal` and take its `Float()`; any `std::runtime_error` from the
conversion (`UnboundedSet`, and equally `InvalidConstruction`) is caught and
replaced by the `NAN` sentinel, modelled as `none`.
`std::bad_function_call` is not a `runtime_error` and would escape, as does
the fuel artifact of the embedding. -/
def FloatInfQ (n : Nat) (x : SurrealInf) : Except Err (Option ℚ) :=
  match ofInfFuel n x with
  | .ok s => .ok (some (FloatQ s))
  | .error .unboundedSet => .ok none
  | .error .invalidConstruction => .ok none
  | .error e => .error e

/-- Fuel-indexed embedding of `SurrealInf::SurrealInf(Surreal const&)`
(`surreals.cpp` lines 692-720): wrap the greatest left element
(`*left.rbegin()`, i.e. the last element in iteration order) and the
smallest right element (`*right.begin()`) into constant generating
functions with size 1; an empty side leaves its `std::function` unset and
its size 0. -/
def ofSurF : Nat → Surreal → SurrealInf
  | 0, _ => SurrealInf.mk none none 0 0
  | n + 1, s =>
      SurrealInf.mk
        (match s.left.getLast? with
         | some m => some fun _ => ofSurF n m
         | none => none)
        (match s.right.head? with
         | some m => some fun _ => ofSurF n m
         | none => none)
        (match s.left.getLast? with | some _ => 1 | none => 0)
        (match s.right.head? with | some _ => 1 | none => 0)

/-- `SurrealInf::SurrealInf(Surreal const&)` with sufficient fuel. -/
def ofSur (s : Surreal) : SurrealInf := ofSurF (size s) s

theorem ofSurF_irrel : ∀ n m s, size s ≤ n → size s ≤ m →
    ofSurF n s = ofSurF m s := by
  intro n
  induction n using Nat.strong_induction_on with
  | _ n ih =>
    intro m s hn hm
    have hpos := size_pos s
    match n, m with
    | 0, _ => omega
    | _ + 1, 0 => omega
    | n' + 1, m' + 1 =>
      simp only [ofSurF]
      congr 1
      · cases hL : s.left.getLast? with
        | none => rfl
        | some mm =>
            have := size_lt_of_mem_left (List.mem_of_mem_getLast? hL)
            simp only [Option.some.injEq]
            funext _
            exact ih n' (by omega) m' mm (by omega) (by omega)
      · cases hR : s.right.head? with
        | none => rfl
        | some mm =>
            have := size_lt_of_mem_right (mem_of_head? hR)
            simp only [Option.some.injEq]
            funext _
            exact ih n' (by omega) m' mm (by omega) (by omega)

theorem ofSur_unfold (s : Surreal) : ofSur s =
    SurrealInf.mk
      (match s.left.getLast? with
       | some m => some fun _ => ofSur m
       | none => none)
      (match s.right.head? with
       | some m => some fun _ => ofSur m
       | none => none)
      (match s.left.getLast? with | some _ => 1 | none => 0)
      (match s.right.head? with | some _ => 1 | none => 0) := by
  have hpos := size_pos s
  conv_lhs => rw [ofSur]
  rcases Nat.exists_eq_add_of_le hpos with ⟨k, hk⟩
  rw [show size s = k + 1 by omega]
  simp only [ofSurF]
  congr 1
  · cases hL : s.left.getLast? with
    | none => rfl
    | some mm =>
        have := size_lt_of_mem_left (List.mem_of_mem_getLast? hL)
        simp only [Option.some.injEq]
        funext _
        exact ofSurF_irrel k (size mm) mm (by omega) (by omega)
  · cases hR : s.right.head? with
    | none => rfl
    | some mm =>
        have := size_lt_of_mem_right (mem_of_head? hR)
        simp only [Option.some.injEq]
        funext _
        exact ofSurF_irrel k (size mm) mm (by omega) (by omega)

/-- **C6**: the finite projection fails with `UnboundedSet` whenever a
negative `leftSize`/`rightSize` is encountered — at the node itself, or in
the recursive descent into the left child, or into the right child once the
left side was fetched — and the error reaches the original caller; whereas
`Float()` on the same input catches the error internally and returns the
not-a-number sentinel instead of propagating it. -/
theorem C6_unbounded_propagation :
    (∀ (x : SurrealInf) (n : Nat), x.leftSize < 0 ∨ x.rightSize < 0 →
      ofInfFuel (n + 1) x = .error .unboundedSet) ∧
    (∀ (x : SurrealInf) (n : Nat) (g : Int → SurrealInf),
      ¬ (x.leftSize < 0 ∨ x.rightSize < 0) → 0 < x.leftSize →
      x.leftFn = some g →
      ofInfFuel n (g (x.leftSize - 1)) = .error .unboundedSet →
      ofInfFuel (n + 1) x = .error .unboundedSet) ∧
    (∀ (x : SurrealInf) (n : Nat) (g : Int → SurrealInf) (L : List Surreal),
      ¬ (x.leftSize < 0 ∨ x.rightSize < 0) →
      (if 0 < x.leftSize then
          match x.leftFn with
          | none => Except.error Err.badFunctionCall
          | some g => (ofInfFuel n (g (x.leftSize - 1))).map fun s => [s]
        else Except.ok []) = Except.ok L →
      0 < x.rightSize → x.rightFn = some g →
      ofInfFuel n (g (x.rightSize - 1)) = .error .unboundedSet →
      ofInfFuel (n + 1) x = .error .unboundedSet) ∧
    (∀ (x : SurrealInf) (n : Nat),
      ofInfFuel n x = .error .unboundedSet → FloatInfQ n x = .ok none) := by
  refine ⟨?_, ?_, ?_, ?_⟩
  · intro x n h
    simp only [ofInfFuel]
    rw [if_pos h]
  · intro x n g hneg hls hfn hrec
    simp only [ofInfFuel]
    rw [if_neg hneg, if_pos hls, hfn]
    simp only [hrec]
    rfl
  · intro x n g L hneg hfetchL hrs hfn hrec
    simp only [ofInfFuel]
    rw [if_neg hneg, hfetchL, if_pos hrs, hfn]
    simp only [hrec]
    rfl
  · intro x n h
    unfold FloatInfQ
    rw [h]

/-- Witness for C6: an instance with `leftSize = -1` fails to project with
`UnboundedSet`, while `Float()` on it yields the NaN sentinel. -/
theorem C6_unbounded_propagation_witness :
    ofInfFuel 5 (SurrealInf.mk (some SurrealInf.constGen) none (-1) 0) =
      .error .unboundedSet ∧
    FloatInfQ 5 (SurrealInf.mk (some SurrealInf.constGen) none (-1) 0) =
      .ok none := by
  have h1 := C6_unbounded_propagation.1
    (SurrealInf.mk (some SurrealInf.constGen) none (-1) 0) 4
    (by left; decide)
  exact ⟨h1, C6_unbounded_propagation.2.2.2 _ 5 h1⟩

/-- **C5**: wrapping a finite number (hereditarily valid, with the
`std::set` representation invariant) into a `SurrealInf` and projecting it
back to a finite number succeeds and yields a number Comparator-equal to
the original. -/
theorem C5_wrap_project_roundtrip :
    ∀ (n : Nat) (s : Surreal), numeric s = true → sortedRep s = true →
      size s ≤ n →
      ∃ v, ofInfFuel n (ofSur s) = .ok v ∧ eqS v s = true := by
  intro n
  induction n using Nat.strong_induction_on with
  | _ n ih =>
    intro s hnum hsort hsz
    have hpos := size_pos s
    match n, hsz with
    | 0, hsz => omega
    | n' + 1, hsz =>
      have hnl : ∀ x ∈ s.left, numeric x = true := (numeric_iff.mp hnum).2.1
      have hnr : ∀ x ∈ s.right, numeric x = true := (numeric_iff.mp hnum).2.2
      have hcl := chain_left_of_sortedRep hsort
      have hcr := chain_right_of_sortedRep hsort
      have hsl : ∀ x ∈ s.left, sortedRep x = true :=
        (sortedRep_iff.mp hsort).2.2.1
      have hsr : ∀ x ∈ s.right, sortedRep x = true :=
        (sortedRep_iff.mp hsort).2.2.2
      have hsimp := simplified_eqS hnl hnr hcl hcr
      cases hL : s.left.getLast? with
      | none =>
          cases hR : s.right.head? with
          | none =>
              refine ⟨mk [] [], ?_, ?_⟩
              · rw [ofSur_unfold, hL, hR]
                rfl
              · simp only [hL, hR, mk_left_right] at hsimp
                exact hsimp
          | some m' =>
              have hmR : m' ∈ s.right := mem_of_head? hR
              have hszR := size_lt_of_mem_right hmR
              obtain ⟨vR, hvR, heR⟩ := ih n' (by omega) m' (hnr m' hmR)
                (hsr m' hmR) (by omega)
              refine ⟨mk [] [vR], ?_, ?_⟩
              · rw [ofSur_unfold, hL, hR]
                simp only [ofInfFuel, SurrealInf.leftFn_mk,
                  SurrealInf.rightFn_mk, SurrealInf.leftSize_mk,
                  SurrealInf.rightSize_mk]
                norm_num
                rw [hvR]
                rfl
              · have h1 : eqS (mk [] [vR]) (mk [] [m']) = true :=
                  eqS_of_options
                    (fun l hl => absurd hl (by simp))
                    (fun r hr => ⟨vR, List.mem_singleton.mpr rfl, by
                      rcases List.mem_singleton.mp hr with rfl
                      exact eqS_symm heR⟩)
                    (fun l hl => absurd hl (by simp))
                    (fun r hr => ⟨m', List.mem_singleton.mpr rfl, by
                      rcases List.mem_singleton.mp hr with rfl
                      exact heR⟩)
                have h2 : eqS (mk [] [m']) s = true := by
                  simp only [hL, hR, mk_left_right] at hsimp
                  exact hsimp
                exact eqS_trans h1 h2
      | some m =>
          have hmL : m ∈ s.left := List.mem_of_mem_getLast? hL
          have hszL := size_lt_of_mem_left hmL
          obtain ⟨vL, hvL, heL⟩ := ih n' (by omega) m (hnl m hmL)
            (hsl m hmL) (by omega)
          cases hR : s.right.head? with
          | none =>
              refine ⟨mk [vL] [], ?_, ?_⟩
              · rw [ofSur_unfold, hL, hR]
                simp only [ofInfFuel, SurrealInf.leftFn_mk,
                  SurrealInf.rightFn_mk, SurrealInf.leftSize_mk,
                  SurrealInf.rightSize_mk]
                norm_num
                rw [hvL]
                rfl
              · have h1 : eqS (mk [vL] []) (mk [m] []) = true :=
                  eqS_of_options
                    (fun l hl => ⟨m, List.mem_singleton.mpr rfl, by
                      rcases List.mem_singleton.mp hl with rfl
                      exact heL⟩)
                    (fun r hr => absurd hr (by simp))
                    (fun l hl => ⟨vL, List.mem_singleton.mpr rfl, by
                      rcases List.mem_singleton.mp hl with rfl
                      exact eqS_symm heL⟩)
                    (fun r hr => absurd hr (by simp))
                have h2 : eqS (mk [m] []) s = true := by
                  simp only [hL, hR, mk_left_right] at hsimp
                  exact hsimp
                exact eqS_trans h1 h2
          | some m' =>
              have hmR : m' ∈ s.right := mem_of_head? hR
              have hszR := size_lt_of_mem_right hmR
              obtain ⟨vR, hvR, heR⟩ := ih n' (by omega) m' (hnr m' hmR)
                (hsr m' hmR) (by omega)
              have hguard : ¬ le vR vL = true := by
                intro h
                exact numeric_guard hnum hmR hmL ((le_congr heR heL).mp h)
              have hguardB : ([vR].any fun r => [vL].any fun l => le r l)
                  = false := by
                simp only [List.any_cons, List.any_nil, Bool.or_false]
                cases hle : le vR vL with
                | true => exact absurd hle hguard
                | false => rfl
              refine ⟨mk [vL] [vR], ?_, ?_⟩
              · rw [ofSur_unfold, hL, hR]
                simp only [ofInfFuel, SurrealInf.leftFn_mk,
                  SurrealInf.rightFn_mk, SurrealInf.leftSize_mk,
                  SurrealInf.rightSize_mk]
                norm_num
                rw [hvL, hvR]
                show ctor [vL] [vR] true = _
                rw [ctor, hguardB]
                rfl
              · have h1 : eqS (mk [vL] [vR]) (mk [m] [m']) = true :=
                  eqS_of_options
                    (fun l hl => ⟨m, List.mem_singleton.mpr rfl, by
                      rcases List.mem_singleton.mp hl with rfl
                      exact heL⟩)
                    (fun r hr => ⟨vR, List.mem_singleton.mpr rfl, by
                      rcases List.mem_singleton.mp hr with rfl
                      exact eqS_symm heR⟩)
                    (fun l hl => ⟨vL, List.mem_singleton.mpr rfl, by
                      rcases List.mem_singleton.mp hl with rfl
                      exact eqS_symm heL⟩)
                    (fun r hr => ⟨m', List.mem_singleton.mpr rfl, by
                      rcases List.mem_singleton.mp hr with rfl
                      exact heR⟩)
                have h2 : eqS (mk [m] [m']) s = true := by
                  simp only [hL, hR, mk_left_right] at hsimp
                  exact hsimp
                exact eqS_trans h1 h2

/-- Witness for C5 at `1/2`: the wrap/project roundtrip preserves the
Comparator class. -/
theorem C5_wrap_project_roundtrip_witness :
    ∃ v, ofInfFuel 20 (ofSur half) = .ok v ∧ eqS v half = true :=
  C5_wrap_project_roundtrip 20 half (by decide) (by decide) (by decide)

/-- **C8**: `getLeft(n)` (and symmetrically `getRight(n)`) returns the
cached value when `n` is in the corresponding cache; otherwise it invokes
the corresponding generating function with `n` once, stores the result in
the cache under `n`, and returns it; consequently, over any sequence of
accesses, the generating function is invoked at most once per distinct
index (zero times if the index was already cached). -/
theorem C8_cache_discipline :
    (∀ (x : SurrealInf) (c : SurrealInf.InfCache) (n : Int)
        (e : Int × SurrealInf), c.find? (fun e => e.1 == n) = some e →
      x.getLeft c n = .ok (e.2, c) ∧ x.getRight c n = .ok (e.2, c)) ∧
    (∀ (x : SurrealInf) (c : SurrealInf.InfCache) (n : Int)
        (g : Int → SurrealInf), c.find? (fun e => e.1 == n) = none →
      (x.leftFn = some g → x.getLeft c n = .ok (g n, (n, g n) :: c)) ∧
      (x.rightFn = some g → x.getRight c n = .ok (g n, (n, g n) :: c))) ∧
    (∀ (g : Int → SurrealInf) (calls : List Int) (c : SurrealInf.InfCache)
        (m : Int), SurrealInf.invocations g calls c m ≤
          if SurrealInf.isMiss c m = true then 1 else 0) := by
  refine ⟨?_, ?_, SurrealInf.invocations_le_one⟩
  · intro x c n e h
    exact ⟨SurrealInf.cacheGet_hit h, SurrealInf.cacheGet_hit h⟩
  · intro x c n g h
    constructor
    · intro hf
      show SurrealInf.cacheGet x.leftFn c n = _
      rw [hf]
      exact SurrealInf.cacheGet_miss h
    · intro hf
      show SurrealInf.cacheGet x.rightFn c n = _
      rw [hf]
      exact SurrealInf.cacheGet_miss h

/-- Witness for C8: a cache hit returns the stored value with the cache
unchanged; a miss invokes the generator and stores the result; three
accesses at the same fresh index invoke the generator at most once. -/
theorem C8_cache_discipline_witness :
    SurrealInf.infSample.getLeft [((0 : Int), SurrealInf.inf0)] 0 =
      .ok (SurrealInf.inf0, [((0 : Int), SurrealInf.inf0)]) ∧
    SurrealInf.infSample.getLeft [] 5 =
      .ok (SurrealInf.constGen 5, [((5 : Int), SurrealInf.constGen 5)]) ∧
    SurrealInf.invocations SurrealInf.constGen [3, 3, 3] [] 3 ≤ 1 :=
  ⟨(C8_cache_discipline.1 SurrealInf.infSample [((0 : Int), SurrealInf.inf0)]
      0 (0, SurrealInf.inf0) rfl).1,
   (C8_cache_discipline.2.1 SurrealInf.infSample [] 5 SurrealInf.constGen
      rfl).1 rfl,
   by simpa using C8_cache_discipline.2.2 SurrealInf.constGen [3, 3, 3] [] 3⟩

/-- **C10**: `getLeft`/`getRight` never compare the requested index with
`leftSize`/`rightSize` (the statement holds for arbitrary size fields and
arbitrary `n`, negative or beyond the declared size): an uncached index is
forwarded straight to the stored generating function and the produced value
is cached under that index; when the side's `std::function` was never set
(e.g. a side of size 0 built from a finite number), the forwarded call
raises the unchecked `std::bad_function_call` — not a checked bounds error —
and nothing is cached. -/
theorem C10_no_bounds_check :
    ∀ (l r : Option (Int → SurrealInf)) (ls rs : Int)
      (c : SurrealInf.InfCache) (n : Int),
      c.find? (fun e => e.1 == n) = none →
      (∀ g, l = some g →
        (SurrealInf.mk l r ls rs).getLeft c n = .ok (g n, (n, g n) :: c)) ∧
      (l = none →
        (SurrealInf.mk l r ls rs).getLeft c n = .error .badFunctionCall) ∧
      (∀ g, r = some g →
        (SurrealInf.mk l r ls rs).getRight c n = .ok (g n, (n, g n) :: c)) ∧
      (r = none →
        (SurrealInf.mk l r ls rs).getRight c n = .error .badFunctionCall) := by
  intro l r ls rs c n h
  refine ⟨fun g hg => ?_, fun hg => ?_, fun g hg => ?_, fun hg => ?_⟩
  · show SurrealInf.cacheGet (SurrealInf.mk l r ls rs).leftFn c n = _
    rw [SurrealInf.leftFn_mk, hg]
    exact SurrealInf.cacheGet_miss h
  · show SurrealInf.cacheGet (SurrealInf.mk l r ls rs).leftFn c n = _
    rw [SurrealInf.leftFn_mk, hg]
    exact SurrealInf.cacheGet_unset h
  · show SurrealInf.cacheGet (SurrealInf.mk l r ls rs).rightFn c n = _
    rw [SurrealInf.rightFn_mk, hg]
    exact SurrealInf.cacheGet_miss h
  · show SurrealInf.cacheGet (SurrealInf.mk l r ls rs).rightFn c n = _
    rw [SurrealInf.rightFn_mk, hg]
    exact SurrealInf.cacheGet_unset h

/-- Witness for C10: on an instance declaring `leftSize = 2`,
`rightSize = 0`, the uncached negative index `-7` goes straight to the left
generator and is cached, and a right access fails with
`bad_function_call` (no generator was ever set for the empty right side). -/
theorem C10_no_bounds_check_witness :
    (SurrealInf.mk (some SurrealInf.constGen) none 2 0).getLeft [] (-7) =
      .ok (SurrealInf.constGen (-7), [((-7 : Int), SurrealInf.constGen (-7))]) ∧
    (SurrealInf.mk (some SurrealInf.constGen) none 2 0).getRight [] 3 =
      .error .badFunctionCall :=
  ⟨(C10_no_bounds_check (some SurrealInf.constGen) none 2 0 [] (-7) rfl).1
      SurrealInf.constGen rfl,
   (C10_no_bounds_check (some SurrealInf.constGen) none 2 0 [] 3 rfl).2.2.2 rfl⟩

/-- **C2 (counterexample)**: computing `1 + 1/2` on an empty table, the
result of the real `operator+` keeps a single left element (the simplify
default drops the rest), while the algorithm described by the claim — a
non-simplifying construction retaining every element of both unioned sets —
would keep two Comparator-distinct left elements. -/
theorem C2_simplify_divergence :
    (addF 20 one half []).isOk = true ∧
    (match addF 20 one half [] with
     | .ok p => (p.1.left.length, p.1.right.length)
     | .error _ => (0, 0)) = (1, 1) ∧
    (addClaimF 20 one half []).isOk = true ∧
    (match addClaimF 20 one half [] with
     | .ok p => (p.1.left.length, p.1.right.length)
     | .error _ => (0, 0)) = (2, 1) := by
  refine ⟨by decide, by decide, by decide, by decide⟩

/-- **C2 (amended)**: on a memo miss, `operator+` computes the four
term-sets `Al+b`, `Ar+b`, `Bl+a`, `Br+a` by element-wise lifting (threading
the lookup table), unions them pairwise into the new left and right sets,
and constructs the raw result from the unions with the constructor's
`simplify = true` default (the out-of-class default argument of
`surreals.cpp` line 18), so the raw result retains only the greatest
element of the unioned left set and the smallest element of the unioned
right set; the raw result is then canonicalised and stored. -/
theorem C2_add_raw_simplifies :
    ∀ (n : Nat) (a b : Surreal) (t : LookupTable),
      tfind t (minmax a b) = none →
      (∃ e, addF (n + 1) a b t = .error e) ∨
      ∃ tempL1 t1 tempR1 t2 tempL2 t3 tempR2 t4,
        addSetNumF (addF n) a.left b t [] = .ok (tempL1, t1) ∧
        addSetNumF (addF n) a.right b t1 [] = .ok (tempR1, t2) ∧
        addSetNumF (addF n) b.left a t2 [] = .ok (tempL2, t3) ∧
        addSetNumF (addF n) b.right a t3 [] = .ok (tempR2, t4) ∧
        ∃ res,
          ctor (tempL2.foldl (fun s x => sinsert x s) tempL1)
               (tempR2.foldl (fun s x => sinsert x s) tempR1) true
            = .ok res ∧
          res = mk
            (match (tempL2.foldl (fun s x => sinsert x s) tempL1).getLast?
              with | some m => [m] | none => [])
            (match (tempR2.foldl (fun s x => sinsert x s) tempR1).head?
              with | some m => [m] | none => []) ∧
          addF (n + 1) a b t =
            .ok ((canonScan res (termCount res) t4).1,
                 tinsert (minmax a b) (canonScan res (termCount res) t4).1
                   (canonScan res (termCount res) t4).2) := by
  intro n a b t hmiss
  cases h1 : addSetNumF (addF n) a.left b t [] with
  | error e => exact Or.inl ⟨e, by simp only [addF, hmiss, h1]⟩
  | ok p1 =>
    obtain ⟨tempL1, t1⟩ := p1
    cases h2 : addSetNumF (addF n) a.right b t1 [] with
    | error e => exact Or.inl ⟨e, by simp only [addF, hmiss, h1, h2]⟩
    | ok p2 =>
      obtain ⟨tempR1, t2⟩ := p2
      cases h3 : addSetNumF (addF n) b.left a t2 [] with
      | error e => exact Or.inl ⟨e, by simp only [addF, hmiss, h1, h2, h3]⟩
      | ok p3 =>
        obtain ⟨tempL2, t3⟩ := p3
        cases h4 : addSetNumF (addF n) b.right a t3 [] with
        | error e =>
            exact Or.inl ⟨e, by simp only [addF, hmiss, h1, h2, h3, h4]⟩
        | ok p4 =>
          obtain ⟨tempR2, t4⟩ := p4
          cases h5 : ctor (tempL2.foldl (fun s x => sinsert x s) tempL1)
              (tempR2.foldl (fun s x => sinsert x s) tempR1) true with
          | error e =>
              exact Or.inl ⟨e, by simp only [addF, hmiss, h1, h2, h3, h4, h5]⟩
          | ok res =>
              refine Or.inr ⟨tempL1, t1, tempR1, t2, tempL2, t3, tempR2, t4,
                rfl, h2, h3, h4, res, h5, ?_, ?_⟩
              · rw [ctor] at h5
                split at h5
                · cases h5
                · rw [if_pos rfl] at h5
                  simp only [Except.ok.injEq] at h5
                  exact h5.symm
              · simp only [addF, hmiss, h1, h2, h3, h4, h5]

/-- Witness for the amended C2 at `1 + 1/2` on the empty table. -/
theorem C2_add_raw_simplifies_witness :
    (∃ e, addF 20 one half [] = .error e) ∨
    ∃ tempL1 t1 tempR1 t2 tempL2 t3 tempR2 t4,
      addSetNumF (addF 19) one.left half [] [] = .ok (tempL1, t1) ∧
      addSetNumF (addF 19) one.right half t1 [] = .ok (tempR1, t2) ∧
      addSetNumF (addF 19) half.left one t2 [] = .ok (tempL2, t3) ∧
      addSetNumF (addF 19) half.right one t3 [] = .ok (tempR2, t4) ∧
      ∃ res,
        ctor (tempL2.foldl (fun s x => sinsert x s) tempL1)
             (tempR2.foldl (fun s x => sinsert x s) tempR1) true
          = .ok res ∧
        res = mk
          (match (tempL2.foldl (fun s x => sinsert x s) tempL1).getLast?
            with | some m => [m] | none => [])
          (match (tempR2.foldl (fun s x => sinsert x s) tempR1).head?
            with | some m => [m] | none => []) ∧
        addF 20 one half [] =
          .ok ((canonScan res (termCount res) t4).1,
               tinsert (minmax one half) (canonScan res (termCount res) t4).1
                 (canonScan res (termCount res) t4).2) :=
  C2_add_raw_simplifies 19 one half [] (by rfl)

/-- **C3**: the canonicalisation scan (the loop both `operator+` and
`operator*` run over their lookup table after a memo miss, embedded once
as `canonScan` and called by both `addF` and `multF`) walks the entries in
order: while no entry has a value Comparator-equal to the raw result with
no more terms than it, every Comparator-equal (hence strictly more complex)
entry is overwritten in place with the raw result and the scan continues,
finishing with the raw result; at the first Comparator-equal entry with at
most as many terms (strictly fewer terms in the raw result, or equally
many), the stored value becomes the final result, the scan stops, and the
rest of the table is left untouched. -/
theorem C3_canonicalisation_scan :
    (∀ (res : Surreal) (s : Nat) (entries : LookupTable),
      (∀ e ∈ entries, ¬ (eqS res e.2 = true ∧ termCount e.2 ≤ s)) →
      canonScan res s entries =
        (res, entries.map fun e =>
          if eqS res e.2 = true then (e.1, res) else e)) ∧
    (∀ (res : Surreal) (s : Nat) (pre post : LookupTable)
        (k : Surreal × Surreal) (v : Surreal),
      (∀ e ∈ pre, ¬ (eqS res e.2 = true ∧ termCount e.2 ≤ s)) →
      eqS res v = true → termCount v ≤ s →
      canonScan res s (pre ++ (k, v) :: post) =
        (v, (pre.map fun e =>
              if eqS res e.2 = true then (e.1, res) else e)
            ++ (k, v) :: post)) := by
  constructor
  · intro res s entries
    induction entries with
    | nil => intro _; rfl
    | cons e rest ih =>
        intro h
        obtain ⟨k, v⟩ := e
        have he := h (k, v) (List.mem_cons_self _ _)
        rw [canonScan]
        cases heq : eqS res v with
        | false =>
            rw [if_neg Bool.false_ne_true]
            rw [ih fun e he => h e (List.mem_cons_of_mem _ he)]
            simp [heq]
        | true =>
            have htc : ¬ termCount v ≤ s := fun hle => he ⟨heq, hle⟩
            rw [if_pos rfl, if_neg (by omega), if_pos (by omega)]
            rw [ih fun e he => h e (List.mem_cons_of_mem _ he)]
            simp [heq]
  · intro res s pre post k v hpre heq htc
    induction pre with
    | nil =>
        simp only [List.nil_append, List.map_nil]
        rw [canonScan, if_pos heq]
        by_cases hgt : s > termCount v
        · rw [if_pos hgt]
        · rw [if_neg hgt, if_neg (by omega)]
    | cons e pre' ih =>
        obtain ⟨k', v'⟩ := e
        have he := hpre (k', v') (List.mem_cons_self _ _)
        have hih := ih fun e he' => hpre e (List.mem_cons_of_mem _ he')
        simp only [List.cons_append]
        rw [canonScan]
        cases heq' : eqS res v' with
        | false =>
            rw [if_neg Bool.false_ne_true, hih]
            simp [heq']
        | true =>
            have htc' : ¬ termCount v' ≤ s := fun hle => he ⟨heq', hle⟩
            rw [if_pos rfl, if_neg (by omega), if_pos (by omega), hih]
            simp [heq']

/-- Witness for C3: scanning a table whose first entry is not
Comparator-equal to the result and whose second entry is an equally
complex equal value adopts the stored second value and leaves the first
entry unchanged. -/
theorem C3_canonicalisation_scan_witness :
    canonScan one 1 ([((zero, zero), zero)] ++
        [((zero, one), mk [zero] [])]) =
      (mk [zero] [], [((zero, zero), zero)] ++ [((zero, one), mk [zero] [])]) := by
  have h := C3_canonicalisation_scan.2 one 1 [((zero, zero), zero)] []
    (zero, one) (mk [zero] []) (by decide) (by decide) (by decide)
  simpa using h

/-- **C7**: `Float()` returns `0` when both sets are empty; the maximum of
the recursively converted left values plus one when only the left set is
nonempty; the minimum of the recursively converted right values minus one
when only the right set is nonempty; and the midpoint of the left maximum
and the right minimum when both are nonempty. -/
theorem C7_float_branches :
    ∀ s : Surreal,
      (s.left = [] → s.right = [] → FloatQ s = 0) ∧
      (s.left ≠ [] → s.right = [] →
        ∃ m ∈ s.left.map FloatQ, (∀ x ∈ s.left.map FloatQ, x ≤ m) ∧
          FloatQ s = m + 1) ∧
      (s.left = [] → s.right ≠ [] →
        ∃ m ∈ s.right.map FloatQ, (∀ x ∈ s.right.map FloatQ, m ≤ x) ∧
          FloatQ s = m - 1) ∧
      (s.left ≠ [] → s.right ≠ [] →
        ∃ mx ∈ s.left.map FloatQ, ∃ mn ∈ s.right.map FloatQ,
          (∀ x ∈ s.left.map FloatQ, x ≤ mx) ∧
          (∀ x ∈ s.right.map FloatQ, mn ≤ x) ∧
          FloatQ s = (mn + mx) / 2) := by
  have getLastOf : ∀ l : List Surreal, l ≠ [] →
      ∃ m, (qset (l.map FloatQ)).getLast? = some m := by
    intro l hne
    have hmapne : l.map FloatQ ≠ [] := by
      intro h
      exact hne (by simpa using h)
    have hqne := qset_ne_nil hmapne
    cases hq : (qset (l.map FloatQ)).getLast? with
    | none =>
        exfalso
        cases hcase : qset (l.map FloatQ) with
        | nil => exact hqne hcase
        | cons a t => rw [hcase] at hq; simp at hq
    | some m => exact ⟨m, rfl⟩
  have headOf : ∀ l : List Surreal, l ≠ [] →
      ∃ m, (qset (l.map FloatQ)).head? = some m := by
    intro l hne
    have hmapne : l.map FloatQ ≠ [] := by
      intro h
      exact hne (by simpa using h)
    have hqne := qset_ne_nil hmapne
    cases hq : (qset (l.map FloatQ)).head? with
    | none =>
        exfalso
        cases hcase : qset (l.map FloatQ) with
        | nil => exact hqne hcase
        | cons a t => rw [hcase] at hq; simp at hq
    | some m => exact ⟨m, rfl⟩
  intro s
  refine ⟨?_, ?_, ?_, ?_⟩
  · intro hL hR
    rw [FloatQ_unfold, hL, hR]
    rfl
  · intro hL hR
    obtain ⟨mx, hmx⟩ := getLastOf s.left hL
    refine ⟨mx, mem_qset.mp (List.mem_of_mem_getLast? hmx), ?_, ?_⟩
    · intro x hx
      exact pairwise_getLast_bound (pairwise_qset _) hmx x (mem_qset.mpr hx)
    · rw [FloatQ_unfold, hmx, hR]
      rfl
  · intro hL hR
    obtain ⟨mn, hmn⟩ := headOf s.right hR
    have hmemq : mn ∈ qset (s.right.map FloatQ) := by
      cases hcase : qset (s.right.map FloatQ) with
      | nil => rw [hcase] at hmn; cases hmn
      | cons a t =>
          rw [hcase] at hmn
          simp only [List.head?_cons, Option.some.injEq] at hmn
          rw [← hmn]
          exact List.mem_cons_self _ _
    refine ⟨mn, mem_qset.mp hmemq, ?_, ?_⟩
    · intro x hx
      exact pairwise_head_bound (pairwise_qset _) hmn x (mem_qset.mpr hx)
    · rw [FloatQ_unfold, hmn, hL]
      rfl
  · intro hL hR
    obtain ⟨mx, hmx⟩ := getLastOf s.left hL
    obtain ⟨mn, hmn⟩ := headOf s.right hR
    have hmemq : mn ∈ qset (s.right.map FloatQ) := by
      cases hcase : qset (s.right.map FloatQ) with
      | nil => rw [hcase] at hmn; cases hmn
      | cons a t =>
          rw [hcase] at hmn
          simp only [List.head?_cons, Option.some.injEq] at hmn
          rw [← hmn]
          exact List.mem_cons_self _ _
    refine ⟨mx, mem_qset.mp (List.mem_of_mem_getLast? hmx),
            mn, mem_qset.mp hmemq, ?_, ?_, ?_⟩
    · intro x hx
      exact pairwise_getLast_bound (pairwise_qset _) hmx x (mem_qset.mpr hx)
    · intro x hx
      exact pairwise_head_bound (pairwise_qset _) hmn x (mem_qset.mpr hx)
    · rw [FloatQ_unfold, hmx, hmn]

/-- Witness for C7 at `1/2 = { 0 | 1 }`: both sides nonempty, so the value
is the midpoint of the converted bounds. -/
theorem C7_float_branches_witness :
    ∃ mx ∈ half.left.map FloatQ, ∃ mn ∈ half.right.map FloatQ,
      (∀ x ∈ half.left.map FloatQ, x ≤ mx) ∧
      (∀ x ∈ half.right.map FloatQ, mn ≤ x) ∧
      FloatQ half = (mn + mx) / 2 :=
  (C7_float_branches half).2.2.2 (by simp [half]) (by simp [half])

/-- **C4**: for every pair of left/right sets accepted by the constructor
guard (given in the iteration order of a `std::set<Surreal>`, with
hereditarily valid elements, which is what any C++ caller can pass),
construction with the simplify flag yields a number Comparator-equal to
construction from the same sets without the flag. -/
theorem C4_simplify_flag_equivalent :
    ∀ (L R : List Surreal),
      (∀ x ∈ L, numeric x = true) → (∀ x ∈ R, numeric x = true) →
      List.Chain' (fun a b => lt a b = true) L →
      List.Chain' (fun a b => lt a b = true) R →
      (¬ ∃ re ∈ R, ∃ lel ∈ L, le re lel = true) →
      ∃ v w, ctor L R true = .ok v ∧ ctor L R false = .ok w ∧
        eqS v w = true := by
  intro L R hnL hnR hcL hcR hguard
  refine ⟨mk (match L.getLast? with | some m => [m] | none => [])
             (match R.head? with | some m => [m] | none => []),
          mk (toSet L) (toSet R), ?_, ?_, ?_⟩
  · rw [ctor]
    split
    · rename_i h
      simp only [List.any_eq_true] at h
      exact absurd h hguard
    · rfl
  · rw [ctor]
    split
    · rename_i h
      simp only [List.any_eq_true] at h
      exact absurd h hguard
    · rfl
  · rw [toSet_of_chain hcL hnL, toSet_of_chain hcR hnR]
    exact simplified_eqS hnL hnR hcL hcR

/-- Witness for C4: `L = {0, 1}`, `R = {2}`; the simplified number `{1 | 2}`
is Comparator-equal to `{0, 1 | 2}`. -/
theorem C4_simplify_flag_equivalent_witness :
    ∃ v w, ctor [zero, one] [two] true = .ok v ∧
      ctor [zero, one] [two] false = .ok w ∧ eqS v w = true :=
  C4_simplify_flag_equivalent [zero, one] [two]
    (by decide) (by decide)
    (List.chain'_cons.mpr ⟨by decide, List.chain'_singleton _⟩)
    (List.chain'_singleton _) (by decide)

/-- **C9**: for hereditarily valid operands (each one, and recursively each
of its set elements, passing the anti-pseudo-number guard) and an addition
lookup table that holds only valid sums, and fuel dominating the combined
operand sizes, the addition pipeline never raises
`InvalidConstruction` — the guarded construction of the unioned result
sets succeeds, and addition returns normally a valid number
Comparator-equal to the reference sum. -/
theorem C9_addition_never_invalid (n : Nat) (a b : Surreal)
    (t : LookupTable) (ha : numeric a = true) (hb : numeric b = true)
    (ht : ValidAddTable t) (hn : size a + size b ≤ n) :
    addF n a b t ≠ .error Err.invalidConstruction ∧
    ∃ v t2, addF n a b t = .ok (v, t2) ∧ numeric v = true ∧
      eqS v (padd a b) = true := by
  rcases addF_ok n a b t ha hb ht hn with ⟨v, t2, h1, h2, h3, _⟩
  refine ⟨?_, v, t2, h1, h2, h3⟩
  rw [h1]
  exact fun h => Except.noConfusion h

/-- Witness for C9 at `1 + 1` on the empty table. -/
theorem C9_addition_never_invalid_witness :
    numeric one = true ∧ ValidAddTable [] ∧ size one + size one ≤ 4 ∧
    (addF 4 one one [] ≠ .error Err.invalidConstruction ∧
     ∃ v t2, addF 4 one one [] = .ok (v, t2) ∧ numeric v = true ∧
       eqS v (padd one one) = true) :=
  ⟨by decide, fun e he => absurd he (List.not_mem_nil e), by decide,
   C9_addition_never_invalid 4 one one [] (by decide) (by decide)
     (fun e he => absurd he (List.not_mem_nil e)) (by decide)⟩

end Surreals
